import Mathlib

/-!
Verification of the resource-management core of the `sim_os` operating-system
simulator: the physical memory allocator (`memory.py`), the virtual memory
manager with paging and TLB (`virtual_memory.py`), the CPU scheduler
(`scheduler.py`), the process entity (`process.py`) and the orchestrator
(`os_sim.py`).

Python dictionaries are modelled as insertion-ordered association lists,
Python `deque`s and lists as Lean lists.  Mutable `Process` objects, which
are aliased between the scheduler's live table, the ready queue, the running
slot and the archive, are modelled by a heap mapping pid to the process
record; references are pids (pids are unique for the simulation's lifetime,
so a pid identifies an object).  Wall-clock timestamps (`datetime.now()`)
and the random burst generator are irrelevant to all properties below:
timestamps are omitted from the event records, and the randomly generated
CPU/IO burst profiles are passed in as explicit parameters at process
creation.  Sizes, pids and frame numbers are naturals (the CLI parses them
with `isdigit()`); page numbers are integers, since `access_page` compares
them with `>=` only and a negative page number is representable.
-/

namespace SimOS

/-- Python-dict lookup `d.get(k)`: the value at the first matching key. -/
def alookup {κ α : Type} [DecidableEq κ] (k : κ) : List (κ × α) → Option α
  | [] => none
  | (k', v) :: t => if k' = k then some v else alookup k t

/-- Python-dict assignment `d[k] = v`: replace the first binding of `k` in
place, or append a new binding at the end (insertion order). -/
def aset {κ α : Type} [DecidableEq κ] (k : κ) (v : α) : List (κ × α) → List (κ × α)
  | [] => [(k, v)]
  | (k', v') :: t => if k' = k then (k, v) :: t else (k', v') :: aset k v t

/-- Python-dict deletion `d.pop(k, None)` / guarded `del d[k]`: drop the
first binding of `k`, no-op when absent. -/
def aerase {κ α : Type} [DecidableEq κ] (k : κ) : List (κ × α) → List (κ × α)
  | [] => []
  | (k', v') :: t => if k' = k then t else (k', v') :: aerase k t

/-- Python-dict key insertion for a set-like dict (`d[k] = obj` where only
the key matters): keep position when present, append when absent. -/
def dinsert (k : Nat) (l : List Nat) : List Nat :=
  if k ∈ l then l else l ++ [k]

theorem alookup_aset_self {κ α : Type} [DecidableEq κ] (k : κ) (v : α) (l : List (κ × α)) :
    alookup k (aset k v l) = some v := by
  induction l with
  | nil => simp [alookup, aset]
  | cons h t ih =>
    by_cases hk : h.1 = k
    · simp [aset, hk, alookup]
    · simp [aset, hk, alookup, ih]

theorem alookup_aset_ne {κ α : Type} [DecidableEq κ] {k k' : κ} (v : α) (l : List (κ × α))
    (h : k ≠ k') : alookup k' (aset k v l) = alookup k' l := by
  induction l with
  | nil => simp [alookup, aset, h]
  | cons hd t ih =>
    obtain ⟨hk, hv⟩ := hd
    by_cases hkk : hk = k
    · subst hkk
      simp [aset, alookup, h, ih]
    · simp [aset, hkk, alookup, ih]

theorem alookup_aerase_ne {κ α : Type} [DecidableEq κ] {k k' : κ} (l : List (κ × α))
    (h : k ≠ k') : alookup k' (aerase k l) = alookup k' l := by
  induction l with
  | nil => simp [aerase]
  | cons hd t ih =>
    obtain ⟨hk, hv⟩ := hd
    by_cases hkk : hk = k
    · subst hkk
      simp [aerase, alookup, h]
    · simp [aerase, hkk, alookup, ih]

theorem alookup_mem {κ α : Type} [DecidableEq κ] {k : κ} {v : α} {l : List (κ × α)}
    (h : alookup k l = some v) : (k, v) ∈ l := by
  induction l with
  | nil => simp [alookup] at h
  | cons hd t ih =>
    obtain ⟨hk, hv⟩ := hd
    by_cases hkk : hk = k
    · subst hkk
      simp [alookup] at h
      simp [h]
    · simp [alookup, hkk] at h
      exact List.mem_cons_of_mem _ (ih h)

theorem mem_aset {κ α : Type} [DecidableEq κ] {k : κ} {v : α} {e : κ × α} {l : List (κ × α)}
    (h : e ∈ aset k v l) : e = (k, v) ∨ e ∈ l := by
  induction l with
  | nil => simpa [aset] using h
  | cons hd t ih =>
    by_cases hkk : hd.1 = k
    · simp [aset, hkk] at h
      rcases h with h | h
      · exact Or.inl h
      · exact Or.inr (List.mem_cons_of_mem _ h)
    · simp [aset, hkk] at h
      rcases h with h | h
      · exact Or.inr (by simp [h])
      · rcases ih h with h' | h'
        · exact Or.inl h'
        · exact Or.inr (List.mem_cons_of_mem _ h')

theorem mem_aerase {κ α : Type} [DecidableEq κ] {k : κ} {e : κ × α} {l : List (κ × α)}
    (h : e ∈ aerase k l) : e ∈ l := by
  induction l with
  | nil => simp [aerase] at h
  | cons hd t ih =>
    by_cases hkk : hd.1 = k
    · simp [aerase, hkk] at h
      exact List.mem_cons_of_mem _ h
    · simp [aerase, hkk] at h
      rcases h with h | h
      · simp [h]
      · exact List.mem_cons_of_mem _ (ih h)

/-! ## Physical memory allocator (`sim_os/memory.py`, class `MemoryManager`) -/

/-- State of `MemoryManager`: `allocated_blocks` maps a base address to
`(size, pid)`. -/
structure MemoryManager where
  total_memory : Nat
  available_memory : Nat
  allocated_blocks : List (Nat × Nat × Nat)
  next_address : Nat
deriving DecidableEq, Repr

/-- `MemoryManager.__init__(total_memory)`. -/
def MemoryManager.init (total : Nat) : MemoryManager :=
  { total_memory := total, available_memory := total, allocated_blocks := [], next_address := 0 }

/-- `MemoryManager.allocate(size, pid)`: fails when `size` exceeds the
available capacity; otherwise records the block at the bump cursor,
decrements the available capacity and advances the cursor. -/
def MemoryManager.allocate (m : MemoryManager) (size pid : Nat) : Option Nat × MemoryManager :=
  if m.available_memory < size then (none, m)
  else
    (some m.next_address,
      { m with
        allocated_blocks := aset m.next_address (size, pid) m.allocated_blocks
        available_memory := m.available_memory - size
        next_address := m.next_address + size })

/-- `MemoryManager.deallocate(address)`: removes the ledger entry when
present and restores its size to the available capacity. -/
def MemoryManager.deallocate (m : MemoryManager) (address : Nat) : Bool × MemoryManager :=
  match alookup address m.allocated_blocks with
  | some sp =>
    (true,
      { m with
        allocated_blocks := aerase address m.allocated_blocks
        available_memory := m.available_memory + sp.1 })
  | none => (false, m)

/-- Sum of the sizes of the live ledger entries. -/
def sumSizes (l : List (Nat × Nat × Nat)) : Nat :=
  (l.map (fun e => e.2.1)).sum

/-- The states reachable from a fresh allocator by any sequence of
`allocate` / `deallocate` calls. -/
inductive MemReach : MemoryManager → Prop
  | init (total : Nat) : MemReach (MemoryManager.init total)
  | alloc {m : MemoryManager} (size pid : Nat) : MemReach m → MemReach (m.allocate size pid).2
  | dealloc {m : MemoryManager} (address : Nat) : MemReach m → MemReach (m.deallocate address).2

theorem sumSizes_aset {k : Nat} {w : Nat × Nat} (v : Nat × Nat) {l : List (Nat × Nat × Nat)}
    (h : alookup k l = some w) : sumSizes (aset k v l) + w.1 = sumSizes l + v.1 := by
  induction l with
  | nil => simp [alookup] at h
  | cons hd t ih =>
    obtain ⟨hk, hv⟩ := hd
    by_cases hkk : hk = k
    · subst hkk
      simp [alookup] at h
      subst h
      simp [aset, sumSizes]
      omega
    · simp [alookup, hkk] at h
      have := ih h
      simp [aset, hkk, sumSizes] at this ⊢
      omega

theorem sumSizes_aset_new {k : Nat} (v : Nat × Nat) {l : List (Nat × Nat × Nat)}
    (h : alookup k l = none) : sumSizes (aset k v l) = sumSizes l + v.1 := by
  induction l with
  | nil => simp [aset, sumSizes]
  | cons hd t ih =>
    obtain ⟨hk, hv⟩ := hd
    by_cases hkk : hk = k
    · subst hkk
      simp [alookup] at h
    · simp [alookup, hkk] at h
      have := ih h
      simp [aset, hkk, sumSizes] at this ⊢
      omega

theorem sumSizes_aerase {k : Nat} {w : Nat × Nat} {l : List (Nat × Nat × Nat)}
    (h : alookup k l = some w) : sumSizes (aerase k l) + w.1 = sumSizes l := by
  induction l with
  | nil => simp [alookup] at h
  | cons hd t ih =>
    obtain ⟨hk, hv⟩ := hd
    by_cases hkk : hk = k
    · subst hkk
      simp [alookup] at h
      subst h
      simp [aerase, sumSizes]
      omega
    · simp [alookup, hkk] at h
      have := ih h
      simp [aerase, hkk, sumSizes] at this ⊢
      omega

/-- The allocator invariant strengthened for the induction: conservation,
plus the fact that every ledger entry ends at or before the bump cursor. -/
def MemInv (m : MemoryManager) : Prop :=
  m.available_memory + sumSizes m.allocated_blocks = m.total_memory ∧
  ∀ e ∈ m.allocated_blocks, e.1 + e.2.1 ≤ m.next_address

theorem memInv_of_reach {m : MemoryManager} (h : MemReach m) : MemInv m := by
  induction h with
  | init total => exact ⟨by simp [MemoryManager.init, sumSizes], by simp [MemoryManager.init]⟩
  | alloc size pid _ ih =>
    obtain ⟨hsum, hend⟩ := ih
    rename_i m _
    unfold MemoryManager.allocate
    by_cases hav : m.available_memory < size
    · simpa [hav] using ⟨hsum, hend⟩
    · simp only [hav, if_false]
      constructor
      · show m.available_memory - size + sumSizes (aset m.next_address (size, pid) m.allocated_blocks) = m.total_memory
        cases hlk : alookup m.next_address m.allocated_blocks with
        | none =>
          rw [sumSizes_aset_new _ hlk]
          omega
        | some w =>
          have hw : w.1 = 0 := by
            have hmem := alookup_mem hlk
            have := hend _ hmem
            simp at this
            omega
          have := sumSizes_aset (k := m.next_address) (w := w) (size, pid) hlk
          rw [hw] at this
          omega
      · intro e he
        rcases mem_aset he with he' | he'
        · subst he'
          simp
        · have := hend _ he'
          simp
          omega
  | dealloc address _ ih =>
    obtain ⟨hsum, hend⟩ := ih
    rename_i m _
    unfold MemoryManager.deallocate
    cases hlk : alookup address m.allocated_blocks with
    | none => simpa using ⟨hsum, hend⟩
    | some sp =>
      simp only []
      constructor
      · show m.available_memory + sp.1 + sumSizes (aerase address m.allocated_blocks) = m.total_memory
        have := sumSizes_aerase hlk
        omega
      · intro e he
        exact hend _ (mem_aerase he)

/-- C5: conservation of capacity over every reachable allocator state. -/
theorem allocator_conservation {m : MemoryManager} (h : MemReach m) :
    m.available_memory + sumSizes m.allocated_blocks = m.total_memory :=
  (memInv_of_reach h).1

theorem allocator_conservation_witness :
    ((MemoryManager.init 100).allocate 30 1).2.available_memory +
      sumSizes ((MemoryManager.init 100).allocate 30 1).2.allocated_blocks =
      ((MemoryManager.init 100).allocate 30 1).2.total_memory :=
  allocator_conservation (MemReach.alloc 30 1 (MemReach.init 100))

/-! ### Allocator call traces, for the address-monotonicity property -/

/-- One call to the allocator. -/
inductive MCall
  | alloc (size pid : Nat)
  | dealloc (address : Nat)
deriving DecidableEq, Repr

/-- The addresses returned by the successful `allocate` calls of a trace,
in call order. -/
def allocAddrs (m : MemoryManager) : List MCall → List Nat
  | [] => []
  | MCall.alloc size pid :: cs =>
    match m.allocate size pid with
    | (some a, m') => a :: allocAddrs m' cs
    | (none, m') => allocAddrs m' cs
  | MCall.dealloc address :: cs => allocAddrs (m.deallocate address).2 cs

/-- A call that either requests a positive size or is a deallocation. -/
def posCall : MCall → Prop
  | MCall.alloc size _ => 0 < size
  | MCall.dealloc _ => True

instance : DecidablePred posCall := by
  intro c
  cases c with
  | alloc size pid => exact inferInstanceAs (Decidable (0 < size))
  | dealloc a => exact inferInstanceAs (Decidable True)

theorem allocate_eq_some {m : MemoryManager} {size pid a : Nat} {m' : MemoryManager}
    (h : m.allocate size pid = (some a, m')) :
    ¬ m.available_memory < size ∧ a = m.next_address ∧
      m' = { m with
             allocated_blocks := aset m.next_address (size, pid) m.allocated_blocks
             available_memory := m.available_memory - size
             next_address := m.next_address + size } := by
  unfold MemoryManager.allocate at h
  by_cases hav : m.available_memory < size
  · rw [if_pos hav] at h
    simp at h
  · rw [if_neg hav] at h
    simp at h
    exact ⟨hav, h.1.symm, h.2.symm⟩

theorem allocate_next_address (m : MemoryManager) (size pid a : Nat) :
    m.next_address ≤ (m.allocate size pid).2.next_address ∧
      ((m.allocate size pid).1 = some a → a = m.next_address) := by
  unfold MemoryManager.allocate
  by_cases hav : m.available_memory < size
  · simp [hav]
  · simp [hav]
    intro h
    omega

theorem deallocate_next_address (m : MemoryManager) (address : Nat) :
    (m.deallocate address).2.next_address = m.next_address := by
  unfold MemoryManager.deallocate
  cases alookup address m.allocated_blocks <;> simp

/-- Every returned address is at least the cursor, and the returned
addresses are non-decreasing. -/
theorem allocAddrs_mono (cs : List MCall) : ∀ m : MemoryManager,
    (∀ a ∈ allocAddrs m cs, m.next_address ≤ a) ∧
      (allocAddrs m cs).Pairwise (· ≤ ·) := by
  induction cs with
  | nil => intro m; simp [allocAddrs]
  | cons c cs ih =>
    intro m
    cases c with
    | alloc size pid =>
      rcases hc : m.allocate size pid with ⟨r, m'⟩
      cases r with
      | none =>
        have hnext : m.next_address ≤ m'.next_address := by
          have := (allocate_next_address m size pid 0).1
          rw [hc] at this
          exact this
        obtain ⟨hall, hpair⟩ := ih m'
        constructor
        · intro a ha
          rw [allocAddrs, hc] at ha
          exact le_trans hnext (hall a ha)
        · rw [allocAddrs, hc]
          exact hpair
      | some a0 =>
        have ha0 : a0 = m.next_address := by
          have := (allocate_next_address m size pid a0).2
          rw [hc] at this
          exact this rfl
        have hnext : m.next_address ≤ m'.next_address := by
          have := (allocate_next_address m size pid 0).1
          rw [hc] at this
          exact this
        obtain ⟨hall, hpair⟩ := ih m'
        constructor
        · intro a ha
          rw [allocAddrs, hc] at ha
          rcases List.mem_cons.mp ha with h | h
          · omega
          · exact le_trans hnext (hall a h)
        · rw [allocAddrs, hc]
          refine List.Pairwise.cons ?_ hpair
          intro a ha
          have := hall a ha
          omega
    | dealloc address =>
      obtain ⟨hall, hpair⟩ := ih (m.deallocate address).2
      constructor
      · intro a ha
        rw [allocAddrs] at ha
        have := hall a ha
        rw [deallocate_next_address] at this
        exact this
      · rw [allocAddrs]
        exact hpair

/-- When every allocation of the trace requests a positive size, the
returned addresses are strictly increasing. -/
theorem allocAddrs_strict (cs : List MCall) (hpos : ∀ c ∈ cs, posCall c) :
    ∀ m : MemoryManager,
    (∀ a ∈ allocAddrs m cs, m.next_address ≤ a) ∧
      (allocAddrs m cs).Pairwise (· < ·) := by
  induction cs with
  | nil => intro m; simp [allocAddrs]
  | cons c cs ih =>
    have hpos' : ∀ c' ∈ cs, posCall c' := fun c' hc' => hpos c' (List.mem_cons_of_mem _ hc')
    intro m
    cases c with
    | alloc size pid =>
      have hsize : 0 < size := hpos (MCall.alloc size pid) (List.mem_cons_self _ _)
      rcases hc : m.allocate size pid with ⟨r, m'⟩
      cases r with
      | none =>
        have hnext : m.next_address ≤ m'.next_address := by
          have := (allocate_next_address m size pid 0).1
          rw [hc] at this
          exact this
        obtain ⟨hall, hpair⟩ := ih hpos' m'
        constructor
        · intro a ha
          rw [allocAddrs, hc] at ha
          exact le_trans hnext (hall a ha)
        · rw [allocAddrs, hc]
          exact hpair
      | some a0 =>
        have ha0 : a0 = m.next_address := by
          have := (allocate_next_address m size pid a0).2
          rw [hc] at this
          exact this rfl
        have hnext : m.next_address + size ≤ m'.next_address := by
          obtain ⟨-, -, hm'⟩ := allocate_eq_some hc
          subst hm'
          simp
        obtain ⟨hall, hpair⟩ := ih hpos' m'
        constructor
        · intro a ha
          rw [allocAddrs, hc] at ha
          rcases List.mem_cons.mp ha with h | h
          · omega
          · have := hall a h
            omega
        · rw [allocAddrs, hc]
          refine List.Pairwise.cons ?_ hpair
          intro a ha
          have := hall a ha
          omega
    | dealloc address =>
      obtain ⟨hall, hpair⟩ := ih hpos' (m.deallocate address).2
      constructor
      · intro a ha
        rw [allocAddrs] at ha
        have := hall a ha
        rw [deallocate_next_address] at this
        exact this
      · rw [allocAddrs]
        exact hpair

/-- C6 counterexample: two zero-size allocations (size `0` passes the CLI's
`isdigit()` parse and the allocator's capacity guard) return the same
address twice, so an address can be returned twice by `allocate`. -/
theorem allocator_reuse_counterexample :
    allocAddrs (MemoryManager.init 10) [MCall.alloc 0 1, MCall.alloc 0 2] = [0, 0] ∧
      ¬ (allocAddrs (MemoryManager.init 10) [MCall.alloc 0 1, MCall.alloc 0 2]).Nodup := by
  constructor
  · rfl
  · decide

/-- C6 amended: over every sequence of allocate/deallocate calls the
returned addresses are non-decreasing, and when every allocate call
requests a positive size no address is ever returned twice, even across
deallocate/allocate cycles of equal size. -/
theorem allocator_address_monotonic (total : Nat) (cs : List MCall) :
    (allocAddrs (MemoryManager.init total) cs).Pairwise (· ≤ ·) ∧
      ((∀ c ∈ cs, posCall c) → (allocAddrs (MemoryManager.init total) cs).Nodup) := by
  constructor
  · exact (allocAddrs_mono cs (MemoryManager.init total)).2
  · intro hpos
    exact List.Pairwise.imp (fun h => Nat.ne_of_lt h)
      ((allocAddrs_strict cs hpos (MemoryManager.init total)).2)

theorem allocator_address_monotonic_witness :
    (∀ c ∈ [MCall.alloc 5 1, MCall.dealloc 0, MCall.alloc 5 2], posCall c) ∧
      (allocAddrs (MemoryManager.init 100)
        [MCall.alloc 5 1, MCall.dealloc 0, MCall.alloc 5 2]).Pairwise (· ≤ ·) ∧
      (allocAddrs (MemoryManager.init 100)
        [MCall.alloc 5 1, MCall.dealloc 0, MCall.alloc 5 2]).Nodup :=
  ⟨by decide, (allocator_address_monotonic 100 _).1,
    (allocator_address_monotonic 100 _).2 (by decide)⟩

/-! ## Virtual memory manager (`sim_os/virtual_memory.py`,
class `VirtualMemoryManager`)

Paging state plus the TLB.  `frame_table` maps a frame number to the
`(pid, page)` pair owning it; a page table maps page numbers (integers) to
frame numbers.  The TLB is an insertion-ordered list of `(pid, page)`
keys, oldest first, mirroring the `OrderedDict` used by the code.
Operations that can raise a Python exception (`popleft` on an empty
deque, `del` of a missing key) return `none`. -/

/-- A per-process page table: `{'pages': .., 'mapping': .., 'faults': ..}`. -/
structure PageTable where
  pages : Nat
  mapping : List (Int × Nat)
  faults : Nat
deriving DecidableEq, Repr

structure VirtualMemoryManager where
  page_size : Nat
  total_frames : Nat
  free_frames : List Nat
  frame_table : List (Nat × Nat × Int)
  page_tables : List (Nat × PageTable)
  lru_queue : List Nat
  page_faults : Nat
  access_log : List (Nat × Int × Bool)
  tlb_capacity : Nat
  tlb : List (Nat × Int)
  tlb_hits : Nat
  tlb_misses : Nat
deriving DecidableEq, Repr

/-- `VirtualMemoryManager.__init__(total_frames, page_size)`. -/
def VirtualMemoryManager.init (total_frames page_size : Nat) : VirtualMemoryManager :=
  { page_size := page_size, total_frames := total_frames,
    free_frames := List.range total_frames, frame_table := [], page_tables := [],
    lru_queue := [], page_faults := 0, access_log := [],
    tlb_capacity := 4, tlb := [], tlb_hits := 0, tlb_misses := 0 }

/-- `create_space(pid, size_kb)`: installs an empty page table of
`max(1, ceil(size_kb / page_size))` pages and returns the page count. -/
def VirtualMemoryManager.create_space (v : VirtualMemoryManager) (pid size_kb : Nat) :
    Nat × VirtualMemoryManager :=
  let pages := max 1 ((size_kb + v.page_size - 1) / v.page_size)
  (pages, { v with page_tables := aset pid ⟨pages, [], 0⟩ v.page_tables })

/-- `release_space(pid)`: for each mapped page (in mapping order) drop the
frame-table entry when present and append the frame to the free list, then
remove the page table; no-op for an unknown pid. -/
def releaseStep (acc : VirtualMemoryManager) (pf : Int × Nat) : VirtualMemoryManager :=
  { acc with
    frame_table := aerase pf.2 acc.frame_table
    free_frames := acc.free_frames ++ [pf.2] }

def VirtualMemoryManager.release_space (v : VirtualMemoryManager) (pid : Nat) :
    VirtualMemoryManager :=
  match alookup pid v.page_tables with
  | none => v
  | some t =>
    let v' := t.mapping.foldl releaseStep v
    { v' with page_tables := aerase pid v'.page_tables }

/-- `_touch_frame(frame)`: remove the frame from the LRU queue when present
and append it at the most-recently-used end. -/
def touch_frame (l : List Nat) (f : Nat) : List Nat :=
  l.erase f ++ [f]

/-- `_get_free_frame(pid, page_number)`: take the head of the free list, or
evict the least-recently-used frame (unmapping it from its owner); `none`
models the exceptions Python would raise on an inconsistent state (empty
LRU queue with no free frame, or a dangling frame-table / page-table
reference). -/
def VirtualMemoryManager.get_free_frame (v : VirtualMemoryManager) (pid : Nat) (page : Int) :
    Option (Nat × VirtualMemoryManager) :=
  match v.free_frames with
  | f :: rest =>
    let v1 := { v with free_frames := rest }
    some (f, { v1 with
      frame_table := aset f (pid, page) v1.frame_table
      lru_queue := touch_frame v1.lru_queue f })
  | [] =>
    match v.lru_queue with
    | [] => none
    | victim :: lruRest =>
      match alookup victim v.frame_table with
      | none => none
      | some vp =>
        match alookup vp.1 v.page_tables with
        | none => none
        | some vt =>
          if (alookup vp.2 vt.mapping).isSome then
            let v1 := { v with
              lru_queue := lruRest
              page_tables := aset vp.1 { vt with mapping := aerase vp.2 vt.mapping } v.page_tables
              frame_table := aerase victim v.frame_table }
            some (victim, { v1 with
              frame_table := aset victim (pid, page) v1.frame_table
              lru_queue := touch_frame v1.lru_queue victim })
          else none

/-- Outcome of `access_page`, in place of the Python `(bool, message)`
pair: `noSpace` is "Proceso sin espacio virtual", `outOfRange` is
"Dirección fuera de rango", `hit` a resident access and `pageFault` a
fault that loaded the page into the given frame. -/
inductive AccessOutcome
  | noSpace
  | outOfRange
  | hit (frame : Nat)
  | pageFault (frame : Nat)
deriving DecidableEq, Repr

/-- `access_page(pid, page_number)`.  The rejection test is only
`page_number >= pages`; the in-place mutations of the aliased `table` and
`mapping` dicts are reproduced by re-reading the pid's table after
`_get_free_frame` (eviction may have shrunk it) before installing the new
mapping. -/
def VirtualMemoryManager.access_page (v : VirtualMemoryManager) (pid : Nat) (page_number : Int) :
    Option (AccessOutcome × VirtualMemoryManager) :=
  match alookup pid v.page_tables with
  | none => some (.noSpace, v)
  | some table =>
    if (table.pages : Int) ≤ page_number then some (.outOfRange, v)
    else
      match alookup page_number table.mapping with
      | some frame =>
        some (.hit frame,
          { v with
            lru_queue := touch_frame v.lru_queue frame
            access_log := v.access_log ++ [(pid, page_number, false)] })
      | none =>
        let v1 := { v with
          page_tables := aset pid { table with faults := table.faults + 1 } v.page_tables
          page_faults := v.page_faults + 1 }
        match v1.get_free_frame pid page_number with
        | none => none
        | some fv =>
          match alookup pid fv.2.page_tables with
          | none => none
          | some t2 =>
            some (.pageFault fv.1,
              { fv.2 with
                page_tables :=
                  aset pid { t2 with mapping := aset page_number fv.1 t2.mapping } fv.2.page_tables
                access_log := fv.2.access_log ++ [(pid, page_number, true)] })

/-- `set_tlb_capacity(capacity)`: clamp to at least 1, then drop
least-recently-used entries while over capacity. -/
def VirtualMemoryManager.set_tlb_capacity (v : VirtualMemoryManager) (capacity : Nat) :
    VirtualMemoryManager :=
  let cap := max 1 capacity
  { v with tlb_capacity := cap, tlb := v.tlb.drop (v.tlb.length - cap) }

/-- `reset_tlb()`. -/
def VirtualMemoryManager.reset_tlb (v : VirtualMemoryManager) : VirtualMemoryManager :=
  { v with tlb := [], tlb_hits := 0, tlb_misses := 0 }

/-- `tlb_access(pid, page)`: returns (hit?, evicted key if any) together
with the new state.  A hit moves the key to the most-recently-used end; a
miss inserts it there and evicts the least-recently-used key when the
cache exceeds its capacity. -/
def VirtualMemoryManager.tlb_access (v : VirtualMemoryManager) (pid : Nat) (page : Int) :
    (Bool × Option (Nat × Int)) × VirtualMemoryManager :=
  let key := (pid, page)
  if key ∈ v.tlb then
    ((true, none),
      { v with tlb := v.tlb.erase key ++ [key], tlb_hits := v.tlb_hits + 1 })
  else
    let v1 := { v with tlb_misses := v.tlb_misses + 1, tlb := v.tlb ++ [key] }
    if v1.tlb_capacity < v1.tlb.length then
      match v1.tlb with
      | [] => ((false, none), v1)
      | victim :: rest => ((false, some victim), { v1 with tlb := rest })
    else ((false, none), v1)

theorem get_free_frame_spec {v : VirtualMemoryManager} {pid : Nat} {page : Int}
    {fr : Nat} {v2 : VirtualMemoryManager}
    (h : v.get_free_frame pid page = some (fr, v2)) :
    v2.page_faults = v.page_faults ∧
    ∀ q t, alookup q v.page_tables = some t →
      ∃ t', alookup q v2.page_tables = some t' ∧ t'.pages = t.pages ∧ t'.faults = t.faults := by
  unfold VirtualMemoryManager.get_free_frame at h
  split at h
  · simp at h
    obtain ⟨-, h2⟩ := h
    subst h2
    exact ⟨rfl, fun q t ht => ⟨t, ht, rfl, rfl⟩⟩
  · split at h
    · simp at h
    · split at h
      · simp at h
      · rename_i victim lruRest heqLru vp heqVf
        split at h
        · simp at h
        · rename_i vt heqVt
          split at h
          · simp at h
            obtain ⟨-, h2⟩ := h
            subst h2
            refine ⟨rfl, fun q t ht => ?_⟩
            by_cases hq : vp.1 = q
            · subst hq
              rw [heqVt] at ht
              have hvteq : vt = t := Option.some.inj ht
              subst hvteq
              exact ⟨_, alookup_aset_self _ _ _, rfl, rfl⟩
            · refine ⟨t, ?_, rfl, rfl⟩
              rw [alookup_aset_ne _ _ hq]
              exact ht
          · simp at h

/-- A completed access to a page absent from the pid's page table is a
page fault: the global and per-process fault counters are incremented by
exactly one and a mapping for the page is installed, the page count
unchanged. -/
theorem access_page_fault_spec {v : VirtualMemoryManager} {pid : Nat} {p : Int}
    {table : PageTable}
    (htab : alookup pid v.page_tables = some table)
    (hrange : ¬ ((table.pages : Int) ≤ p))
    (hmap : alookup p table.mapping = none) :
    ∀ r v', v.access_page pid p = some (r, v') →
      ∃ f, r = AccessOutcome.pageFault f ∧
        v'.page_faults = v.page_faults + 1 ∧
        ∃ t', alookup pid v'.page_tables = some t' ∧
          t'.pages = table.pages ∧ t'.faults = table.faults + 1 ∧
          alookup p t'.mapping = some f := by
  intro r v' hacc
  unfold VirtualMemoryManager.access_page at hacc
  split at hacc
  · rename_i heq
    rw [htab] at heq
    cases heq
  · rename_i tbl heq
    have htt : tbl = table := Option.some.inj (heq.symm.trans htab)
    rw [htt] at hacc
    rw [if_neg hrange] at hacc
    split at hacc
    · rename_i f0 heq2
      rw [hmap] at heq2
      cases heq2
    · simp only [] at hacc
      split at hacc
      · simp at hacc
      · rename_i fv heqGff
        split at hacc
        · simp at hacc
        · rename_i t2 heqT2
          simp only [Option.some.injEq, Prod.mk.injEq] at hacc
          obtain ⟨hr, hv'⟩ := hacc
          subst hr
          obtain ⟨hfaults1, htabs1⟩ := get_free_frame_spec heqGff
          have ht1 : ∃ t1, alookup pid
              ({ v with
                 page_tables := aset pid { table with faults := table.faults + 1 } v.page_tables
                 page_faults := v.page_faults + 1 } : VirtualMemoryManager).page_tables = some t1 ∧
              t1.pages = table.pages ∧ t1.faults = table.faults + 1 :=
            ⟨_, alookup_aset_self _ _ _, rfl, rfl⟩
          obtain ⟨t1, ht1, ht1pages, ht1faults⟩ := ht1
          obtain ⟨t2', ht2', ht2pages, ht2faults⟩ := htabs1 pid t1 ht1
          have ht2eq : t2' = t2 := Option.some.inj (ht2'.symm.trans heqT2)
          rw [ht2eq] at ht2pages ht2faults
          refine ⟨fv.1, rfl, ?_, ?_⟩
          · rw [← hv']
            simpa using hfaults1
          · refine ⟨{ t2 with mapping := aset p fv.1 t2.mapping }, ?_, ?_, ?_, ?_⟩
            · rw [← hv']
              exact alookup_aset_self _ _ _
            · simpa using ht2pages.trans ht1pages
            · simpa using ht2faults.trans ht1faults
            · exact alookup_aset_self _ _ _

/-- An access to a page resident in the pid's page table is a HIT: no
fault counter moves and the page tables are untouched. -/
theorem access_page_hit_spec {v : VirtualMemoryManager} {pid : Nat} {p : Int}
    {table : PageTable} {f : Nat}
    (htab : alookup pid v.page_tables = some table)
    (hrange : ¬ ((table.pages : Int) ≤ p))
    (hmap : alookup p table.mapping = some f) :
    ∃ v', v.access_page pid p = some (.hit f, v') ∧
      v'.page_faults = v.page_faults ∧ v'.page_tables = v.page_tables := by
  refine ⟨{ v with
            lru_queue := touch_frame v.lru_queue f
            access_log := v.access_log ++ [(pid, p, false)] }, ?_, rfl, rfl⟩
  unfold VirtualMemoryManager.access_page
  rw [htab]
  simp only [hmap, if_neg hrange]

/-- C3: for a pid with a page table and a page number the bounds test
accepts: an access to a resident page is a HIT and leaves the global
`page_faults` counter unchanged, while an access to a non-resident page
(when it completes) is a page fault, increments `page_faults` by exactly
one, and a following access to the same (pid, page) with no intervening
eviction of the page's frame (here: immediately following, so the mapping
installed by the fault is still present) is a HIT that again leaves
`page_faults` unchanged. -/
theorem paging_fault_then_hit {v : VirtualMemoryManager} {pid : Nat} {p : Int}
    {table : PageTable}
    (htab : alookup pid v.page_tables = some table)
    (hrange : p < (table.pages : Int)) :
    (∀ f, alookup p table.mapping = some f →
      ∃ v', v.access_page pid p = some (.hit f, v') ∧ v'.page_faults = v.page_faults) ∧
    (alookup p table.mapping = none →
      ∀ r v', v.access_page pid p = some (r, v') →
        (∃ f, r = AccessOutcome.pageFault f) ∧
        v'.page_faults = v.page_faults + 1 ∧
        ∃ f' v'', v'.access_page pid p = some (.hit f', v'') ∧
          v''.page_faults = v'.page_faults) := by
  have hle : ¬ ((table.pages : Int) ≤ p) := by omega
  constructor
  · intro f hmap
    obtain ⟨v', hacc, hpf, -⟩ := access_page_hit_spec htab hle hmap
    exact ⟨v', hacc, hpf⟩
  · intro hmap r v' hacc
    obtain ⟨f, hr, hpf, t', ht', htp, htf, htm⟩ :=
      access_page_fault_spec htab hle hmap r v' hacc
    refine ⟨⟨f, hr⟩, hpf, ?_⟩
    have hle' : ¬ ((t'.pages : Int) ≤ p) := by rw [htp]; omega
    obtain ⟨v'', hacc', hpf', -⟩ := access_page_hit_spec ht' hle' htm
    exact ⟨f, v'', hacc', hpf'⟩

/-- A two-frame demonstration state: pid 1 owns a 4-page space with no
resident pages. -/
def faultDemoVM : VirtualMemoryManager :=
  { page_size := 16, total_frames := 2, free_frames := [0, 1], frame_table := [],
    page_tables := [(1, ⟨4, [], 0⟩)], lru_queue := [], page_faults := 0, access_log := [],
    tlb_capacity := 4, tlb := [], tlb_hits := 0, tlb_misses := 0 }

/-- The result of the first access of `faultDemoVM` to (pid 1, page 0). -/
def faultDemoRes : AccessOutcome × VirtualMemoryManager :=
  (faultDemoVM.access_page 1 0).getD (AccessOutcome.noSpace, faultDemoVM)

theorem paging_fault_then_hit_witness :
    (∃ f, faultDemoRes.1 = AccessOutcome.pageFault f) ∧
    faultDemoRes.2.page_faults = faultDemoVM.page_faults + 1 ∧
    ∃ f' v'', faultDemoRes.2.access_page 1 0 = some (AccessOutcome.hit f', v'') ∧
      v''.page_faults = faultDemoRes.2.page_faults :=
  (@paging_fault_then_hit faultDemoVM 1 0 ⟨4, [], 0⟩
    rfl (by decide)).2 rfl faultDemoRes.1 faultDemoRes.2 rfl

/-- C10: for a pid with a page table, a negative page number passes the
`page_number >= pages` bounds test, so (when not already mapped by an
earlier negative-page fault) the access is handled as a page fault: both
fault counters are incremented by one and a mapping for the negative page
number is installed in the pid's page table. -/
theorem negative_page_faults_in {v : VirtualMemoryManager} {pid : Nat} {p : Int}
    {table : PageTable}
    (htab : alookup pid v.page_tables = some table)
    (hneg : p < 0)
    (hmap : alookup p table.mapping = none) :
    ∀ r v', v.access_page pid p = some (r, v') →
      ∃ f, r = AccessOutcome.pageFault f ∧
        v'.page_faults = v.page_faults + 1 ∧
        ∃ t', alookup pid v'.page_tables = some t' ∧
          t'.faults = table.faults + 1 ∧
          alookup p t'.mapping = some f := by
  have hle : ¬ ((table.pages : Int) ≤ p) := by
    have : (0 : Int) ≤ (table.pages : Int) := Int.natCast_nonneg _
    omega
  intro r v' hacc
  obtain ⟨f, hr, hpf, t', ht', -, htf, htm⟩ := access_page_fault_spec htab hle hmap r v' hacc
  exact ⟨f, hr, hpf, t', ht', htf, htm⟩

/-- The result of an access of `faultDemoVM` to the negative page -1. -/
def negDemoRes : AccessOutcome × VirtualMemoryManager :=
  (faultDemoVM.access_page 1 (-1)).getD (AccessOutcome.noSpace, faultDemoVM)

theorem negative_page_faults_in_witness :
    ∃ f, negDemoRes.1 = AccessOutcome.pageFault f ∧
      negDemoRes.2.page_faults = faultDemoVM.page_faults + 1 ∧
      ∃ t', alookup 1 negDemoRes.2.page_tables = some t' ∧
        t'.faults = (0 : Nat) + 1 ∧
        alookup (-1) t'.mapping = some f :=
  @negative_page_faults_in faultDemoVM 1 (-1) ⟨4, [], 0⟩
    rfl (by decide) rfl negDemoRes.1 negDemoRes.2 rfl

/-! ### TLB LRU behaviour -/

/-- Run a sequence of `tlb_access` calls, keeping only the final state. -/
def foldTLBAccess (v : VirtualMemoryManager) : List (Nat × Int) → VirtualMemoryManager
  | [] => v
  | k :: ks => foldTLBAccess (v.tlb_access k.1 k.2).2 ks

theorem tlb_access_capacity (v : VirtualMemoryManager) (p : Nat) (g : Int) :
    (v.tlb_access p g).2.tlb_capacity = v.tlb_capacity := by
  unfold VirtualMemoryManager.tlb_access
  simp only []
  split
  · rfl
  · split
    · split <;> rfl
    · rfl

theorem tlb_access_miss_fst {v : VirtualMemoryManager} {p : Nat} {g : Int}
    (h : (p, g) ∉ v.tlb) : ((v.tlb_access p g).1).1 = false := by
  unfold VirtualMemoryManager.tlb_access
  simp only []
  rw [if_neg h]
  split
  · split <;> rfl
  · rfl

theorem tlb_access_miss_no_evict {v : VirtualMemoryManager} {p : Nat} {g : Int}
    (h : (p, g) ∉ v.tlb) (hlen : v.tlb.length + 1 ≤ v.tlb_capacity) :
    (v.tlb_access p g).2.tlb = v.tlb ++ [(p, g)] := by
  unfold VirtualMemoryManager.tlb_access
  rw [if_neg h]
  have hno : ¬ v.tlb_capacity < (v.tlb ++ [(p, g)]).length := by
    simp
    omega
  simp only [List.length_append, List.length_cons, List.length_nil]
  rw [if_neg (by simpa using hno)]

/-- Filling phase: accessing fresh keys that fit within the capacity
appends them in order without eviction. -/
theorem foldTLB_fill (l : List (Nat × Int)) : ∀ v : VirtualMemoryManager,
    (v.tlb ++ l).Nodup → v.tlb.length + l.length ≤ v.tlb_capacity →
    (foldTLBAccess v l).tlb = v.tlb ++ l ∧
      (foldTLBAccess v l).tlb_capacity = v.tlb_capacity := by
  induction l with
  | nil => intro v _ _; simp [foldTLBAccess]
  | cons kk ks ih =>
    intro v hnd hlen
    have hmem : kk ∉ v.tlb := by
      intro hm
      have := List.disjoint_of_nodup_append hnd
      exact this hm (List.mem_cons_self _ _)
    have hstep : (v.tlb_access kk.1 kk.2).2.tlb = v.tlb ++ [kk] := by
      have := tlb_access_miss_no_evict (v := v) (p := kk.1) (g := kk.2)
        (by simpa using hmem) (by simp at hlen ⊢; omega)
      simpa using this
    have hcap : (v.tlb_access kk.1 kk.2).2.tlb_capacity = v.tlb_capacity :=
      tlb_access_capacity v kk.1 kk.2
    have hnd' : ((v.tlb_access kk.1 kk.2).2.tlb ++ ks).Nodup := by
      rw [hstep]
      simpa using hnd
    have hlen' : (v.tlb_access kk.1 kk.2).2.tlb.length + ks.length ≤
        (v.tlb_access kk.1 kk.2).2.tlb_capacity := by
      rw [hstep, hcap]
      simp at hlen ⊢
      omega
    obtain ⟨h1, h2⟩ := ih _ hnd' hlen'
    refine ⟨?_, ?_⟩
    · rw [foldTLBAccess, h1, hstep]
      simp
    · rw [foldTLBAccess, h2, hcap]

/-- Overflow phase: accessing fresh keys whose total exceeds the capacity
by exactly one triggers exactly one eviction, of the oldest entry. -/
theorem foldTLB_overflow (l : List (Nat × Int)) : ∀ v : VirtualMemoryManager,
    (v.tlb ++ l).Nodup → 1 ≤ l.length →
    v.tlb.length + l.length = v.tlb_capacity + 1 →
    (foldTLBAccess v l).tlb = (v.tlb ++ l).drop 1 ∧
      (foldTLBAccess v l).tlb_capacity = v.tlb_capacity := by
  induction l with
  | nil =>
    intro v _ h1 _
    simp at h1
  | cons kk ks ih =>
    intro v hnd hone hlen
    have hmem : kk ∉ v.tlb := by
      intro hm
      have := List.disjoint_of_nodup_append hnd
      exact this hm (List.mem_cons_self _ _)
    cases ks with
    | nil =>
      have hcaplt : v.tlb_capacity < (v.tlb ++ [kk]).length := by
        simp at hlen ⊢
        omega
      rw [foldTLBAccess, foldTLBAccess]
      unfold VirtualMemoryManager.tlb_access
      rw [if_neg hmem]
      simp only []
      rw [if_pos (by simpa using hcaplt)]
      split
      · rename_i heq
        exact absurd heq (by simp)
      · rename_i victim rest heq
        constructor
        · show rest = (v.tlb ++ [kk]).drop 1
          rw [show v.tlb ++ [kk] = victim :: rest from heq]
          simp
        · rfl
    | cons k2 ks2 =>
      have hstep : (v.tlb_access kk.1 kk.2).2.tlb = v.tlb ++ [kk] := by
        have := tlb_access_miss_no_evict (v := v) (p := kk.1) (g := kk.2)
          (by simpa using hmem) (by simp at hlen ⊢; omega)
        simpa using this
      have hcap : (v.tlb_access kk.1 kk.2).2.tlb_capacity = v.tlb_capacity :=
        tlb_access_capacity v kk.1 kk.2
      have hnd' : ((v.tlb_access kk.1 kk.2).2.tlb ++ (k2 :: ks2)).Nodup := by
        rw [hstep]
        simpa using hnd
      have hlen' : (v.tlb_access kk.1 kk.2).2.tlb.length + (k2 :: ks2).length =
          (v.tlb_access kk.1 kk.2).2.tlb_capacity + 1 := by
        rw [hstep, hcap]
        simp at hlen ⊢
        omega
      obtain ⟨h1, h2⟩ := ih _ hnd' (by simp) hlen'
      refine ⟨?_, ?_⟩
      · rw [foldTLBAccess, h1, hstep]
        simp
      · rw [foldTLBAccess, h2, hcap]

/-- C4: with capacity k ≥ 1 and an initially empty TLB, accessing k+1
pairwise-distinct keys in order evicts exactly the first key, and
re-accessing that first key reports a MISS. -/
theorem tlb_lru_eviction {k : Nat} {key0 : Nat × Int} {rest : List (Nat × Int)}
    {v : VirtualMemoryManager}
    (_hk : 1 ≤ k) (hlen : rest.length = k) (hnd : (key0 :: rest).Nodup)
    (htlb : v.tlb = []) (hcap : v.tlb_capacity = k) :
    key0 ∉ (foldTLBAccess v (key0 :: rest)).tlb ∧
    ((foldTLBAccess v (key0 :: rest)).tlb_access key0.1 key0.2).1.1 = false := by
  obtain ⟨h1, -⟩ := foldTLB_overflow (key0 :: rest) v
    (by rw [htlb]; simpa using hnd)
    (by simp)
    (by rw [htlb, hcap]; simp [hlen])
  rw [htlb] at h1
  simp at h1
  have hnotin : key0 ∉ (foldTLBAccess v (key0 :: rest)).tlb := by
    rw [h1]
    exact (List.nodup_cons.mp hnd).1
  exact ⟨hnotin, tlb_access_miss_fst (by simpa using hnotin)⟩

/-- A bare state whose TLB has capacity 3, for the concrete C4 scenario. -/
def tlbDemoVM : VirtualMemoryManager :=
  { page_size := 16, total_frames := 64, free_frames := [], frame_table := [],
    page_tables := [], lru_queue := [], page_faults := 0, access_log := [],
    tlb_capacity := 3, tlb := [], tlb_hits := 0, tlb_misses := 0 }

theorem tlb_lru_eviction_witness :
    ((foldTLBAccess tlbDemoVM [(1, 0), (2, 1), (3, 2)]).tlb_access 4 0).1 =
      (false, some (1, 0)) ∧
    (1, 0) ∉ (foldTLBAccess tlbDemoVM [(1, 0), (2, 1), (3, 2), (4, 0)]).tlb ∧
    ((foldTLBAccess tlbDemoVM [(1, 0), (2, 1), (3, 2), (4, 0)]).tlb_access 1 0).1.1 = false :=
  ⟨by decide,
    (@tlb_lru_eviction 3 (1, 0) [(2, 1), (3, 2), (4, 0)] tlbDemoVM
      (by decide) (by decide) (by decide) rfl rfl).1,
    (@tlb_lru_eviction 3 (1, 0) [(2, 1), (3, 2), (4, 0)] tlbDemoVM
      (by decide) (by decide) (by decide) rfl rfl).2⟩

/-! ## Process entity (`sim_os/process.py`)

`Process` objects are mutable and aliased (the same object is referenced
by the scheduler's live table, the ready queue, the running slot and the
archive), so the embedding keeps every process in a heap keyed by pid and
represents references as pids.  `created_at`/`arrival_time` timestamps,
the `files` list (filesystem collaborator), `security_hash` and
`virtual_pages` (never written by the core paths) are omitted; the random
CPU/IO burst profiles are explicit creation parameters. -/

inductive PState
  | NEW
  | READY
  | RUNNING
  | WAITING
  | TERMINATED
deriving DecidableEq, Repr

/-- One entry of `Process.state_flow` (timestamp omitted). -/
structure Flow where
  state : PState
  note : Option String
deriving DecidableEq, Repr

/-- One entry of the event timeline / a process's `history`
(timestamp omitted; metadata values are integers). -/
structure Event where
  step : Nat
  category : String
  message : String
  metadata : List (String × Int)
  pid : Option Nat
deriving DecidableEq, Repr

structure Process where
  pid : Nat
  name : String
  priority : Int
  state : PState
  memory_size : Nat
  memory_address : Option Nat
  cpu_time : Nat
  cpu_profile : List Nat
  io_profile : List Nat
  history : List Event
  state_flow : List Flow
deriving DecidableEq, Repr

instance : Inhabited Process :=
  ⟨⟨0, "", 0, PState.NEW, 0, none, 0, [], [], [], []⟩⟩

/-- The object heap: pid to process record. -/
abbrev Heap := List (Nat × Process)

/-- Dereference a pid (total; live pids are always present). -/
def getP (h : Heap) (pid : Nat) : Process :=
  (alookup pid h).getD default

/-- `Process.record_state(new_state, note)`: set `state` and append an
immutable record to `state_flow`, through the heap. -/
def recordState (h : Heap) (pid : Nat) (st : PState) (note : Option String) : Heap :=
  match alookup pid h with
  | some p => aset pid { p with state := st, state_flow := p.state_flow ++ [⟨st, note⟩] } h
  | none => h

/-! ### A stable sort, modelling Python's stable `sorted(key=...)` -/

/-- Insert `x` after every element whose key is strictly smaller, and
before the first element of greater-or-equal key: since `x` precedes the
already-sorted elements in the original order, this preserves stability. -/
def insertSortedBy {α β : Type} [LinearOrder β] (key : α → β) (x : α) : List α → List α
  | [] => [x]
  | y :: ys => if key y < key x then y :: insertSortedBy key x ys else x :: y :: ys

/-- Stable insertion sort, ascending by `key` — extensionally the stable
sort performed by Python's `sorted(queue, key=...)`. -/
def sortedBy {α β : Type} [LinearOrder β] (key : α → β) : List α → List α
  | [] => []
  | x :: xs => insertSortedBy key x (sortedBy key xs)

theorem insertSortedBy_perm {α β : Type} [LinearOrder β] (key : α → β) (x : α) (l : List α) :
    List.Perm (insertSortedBy key x l) (x :: l) := by
  induction l with
  | nil => exact List.Perm.refl _
  | cons y ys ih =>
    rw [insertSortedBy]
    by_cases h : key y < key x
    · rw [if_pos h]
      exact (ih.cons y).trans (List.Perm.swap x y ys)
    · rw [if_neg h]

theorem sortedBy_perm {α β : Type} [LinearOrder β] (key : α → β) (l : List α) :
    List.Perm (sortedBy key l) l := by
  induction l with
  | nil => exact List.Perm.refl _
  | cons x xs ih =>
    rw [sortedBy]
    exact (insertSortedBy_perm key x (sortedBy key xs)).trans (ih.cons x)

theorem insertSortedBy_pairwise {α β : Type} [LinearOrder β] {key : α → β} {x : α}
    {l : List α} (h : l.Pairwise (fun a b => key a ≤ key b)) :
    (insertSortedBy key x l).Pairwise (fun a b => key a ≤ key b) := by
  induction l with
  | nil => simp [insertSortedBy]
  | cons y ys ih =>
    rw [List.pairwise_cons] at h
    obtain ⟨hy, hys⟩ := h
    rw [insertSortedBy]
    by_cases hlt : key y < key x
    · rw [if_pos hlt, List.pairwise_cons]
      refine ⟨?_, ih hys⟩
      intro a ha
      have hmem : a ∈ x :: ys := ((insertSortedBy_perm key x ys).mem_iff).mp ha
      rcases List.mem_cons.mp hmem with rfl | h'
      · exact le_of_lt hlt
      · exact hy a h'
    · rw [if_neg hlt, List.pairwise_cons]
      refine ⟨?_, List.Pairwise.cons hy hys⟩
      intro a ha
      rcases List.mem_cons.mp ha with rfl | h'
      · exact le_of_not_lt hlt
      · exact le_trans (le_of_not_lt hlt) (hy a h')

theorem sortedBy_pairwise {α β : Type} [LinearOrder β] (key : α → β) (l : List α) :
    (sortedBy key l).Pairwise (fun a b => key a ≤ key b) := by
  induction l with
  | nil => simp [sortedBy]
  | cons x xs ih =>
    rw [sortedBy]
    exact insertSortedBy_pairwise ih

theorem insertSortedBy_filter {α β : Type} [LinearOrder β] (key : α → β) (x : α)
    (l : List α) (b : β) :
    (insertSortedBy key x l).filter (fun a => decide (key a = b)) =
      if key x = b then x :: l.filter (fun a => decide (key a = b))
      else l.filter (fun a => decide (key a = b)) := by
  induction l with
  | nil =>
    by_cases h : key x = b <;> simp [insertSortedBy, h]
  | cons y ys ih =>
    rw [insertSortedBy]
    by_cases hlt : key y < key x
    · rw [if_pos hlt]
      by_cases hyb : key y = b
      · by_cases hxb : key x = b
        · exact absurd hlt (by rw [hyb, hxb]; exact lt_irrefl b)
        · simp [List.filter_cons, hyb, hxb, ih]
      · by_cases hxb : key x = b <;>
          simp [List.filter_cons, hyb, hxb, ih]
    · rw [if_neg hlt]
      by_cases hxb : key x = b <;> simp [List.filter_cons, hxb]

theorem sortedBy_filter {α β : Type} [LinearOrder β] (key : α → β) (l : List α) (b : β) :
    (sortedBy key l).filter (fun a => decide (key a = b)) =
      l.filter (fun a => decide (key a = b)) := by
  induction l with
  | nil => simp [sortedBy]
  | cons x xs ih =>
    rw [sortedBy, insertSortedBy_filter]
    by_cases hxb : key x = b <;> simp [List.filter_cons, hxb, ih]

/-! ## CPU scheduler (`sim_os/scheduler.py`, class `CPUScheduler`)

The ready queue, the running slot and the live table hold references to
`Process` objects, i.e. pids into the heap.  Operations thread the heap
explicitly. -/

structure CPUScheduler where
  quantum : Nat
  ready_queue : List Nat
  running_process : Option Nat
  processes : List Nat
  policy : String
deriving DecidableEq, Repr

/-- `CPUScheduler.__init__(quantum, policy)`. -/
def CPUScheduler.init (quantum : Nat) (policy : String) : CPUScheduler :=
  { quantum := quantum, ready_queue := [], running_process := none,
    processes := [], policy := policy }

/-- The `PRIORITY` sort key: `lambda p: p.priority`. -/
def prioKey (h : Heap) (pid : Nat) : Int :=
  (getP h pid).priority

/-- The `SJF` sort key `next_burst`:
`proc.cpu_profile[0] if proc.cpu_profile else 9999`. -/
def sjfKey (h : Heap) (pid : Nat) : Int :=
  match (getP h pid).cpu_profile with
  | [] => 9999
  | b :: _ => (b : Int)

/-- `CPUScheduler._sort_by_policy()`: `PRIORITY` and `SJF` rebuild the
ready queue with Python's stable `sorted`; `RR` and `FIFO` (and any other
string) leave the order unchanged. -/
def CPUScheduler.sort_by_policy (s : CPUScheduler) (h : Heap) : CPUScheduler :=
  if s.policy = "PRIORITY" then
    { s with ready_queue := sortedBy (prioKey h) s.ready_queue }
  else if s.policy = "RR" then
    { s with ready_queue := s.ready_queue }
  else if s.policy = "FIFO" then
    { s with ready_queue := s.ready_queue }
  else if s.policy = "SJF" then
    { s with ready_queue := sortedBy (sjfKey h) s.ready_queue }
  else s

/-- `CPUScheduler.add_process(process)`: insert in the live table, record
READY, append to the ready queue, re-sort per policy. -/
def CPUScheduler.add_process (s : CPUScheduler) (h : Heap) (pid : Nat) :
    Heap × CPUScheduler :=
  let s1 := { s with processes := dinsert pid s.processes }
  let h1 := recordState h pid .READY (some "En cola READY")
  let s2 := { s1 with ready_queue := s1.ready_queue ++ [pid] }
  (h1, s2.sort_by_policy h1)

/-- `CPUScheduler.set_policy(policy)`: accept only the four known names,
re-sorting immediately. -/
def CPUScheduler.set_policy (s : CPUScheduler) (h : Heap) (policy : String) :
    Bool × CPUScheduler :=
  if policy = "PRIORITY" ∨ policy = "RR" ∨ policy = "FIFO" ∨ policy = "SJF" then
    (true, ({ s with policy := policy } : CPUScheduler).sort_by_policy h)
  else (false, s)

/-- The `if self.running_process: if ... RUNNING: record READY; append`
prefix of `schedule_next`: requeue the running process at the tail, only
when its recorded state is RUNNING. -/
def CPUScheduler.requeue_running (s : CPUScheduler) (h : Heap) : Heap × CPUScheduler :=
  match s.running_process with
  | some r =>
    if (getP h r).state = PState.RUNNING then
      (recordState h r .READY (some "Devuelto a READY"),
       { s with ready_queue := s.ready_queue ++ [r] })
    else (h, s)
  | none => (h, s)

/-- `self.running_process.cpu_time += self.quantum`, through the heap. -/
def bumpCpu (h : Heap) (pid : Nat) (quantum : Nat) : Heap :=
  match alookup pid h with
  | some pr => aset pid { pr with cpu_time := pr.cpu_time + quantum } h
  | none => h

/-- The `if self.ready_queue: popleft; record RUNNING; credit quantum`
suffix of `schedule_next`. -/
def CPUScheduler.dispatch_head (s : CPUScheduler) (h : Heap) (quantum : Nat) :
    Option Nat × Heap × CPUScheduler :=
  match s.ready_queue with
  | [] => (none, h, s)
  | p :: rest =>
    (some p,
     bumpCpu (recordState h p .RUNNING (some "Ejecutando en CPU")) p quantum,
     { s with ready_queue := rest, running_process := some p })

/-- `CPUScheduler.schedule_next()`: sort per policy first, then requeue
the running process (when RUNNING), then dispatch the queue head. -/
def CPUScheduler.schedule_next (s : CPUScheduler) (h : Heap) :
    Option Nat × Heap × CPUScheduler :=
  let s1 := s.sort_by_policy h
  let hs2 := s1.requeue_running h
  hs2.2.dispatch_head hs2.1 s.quantum

/-- `CPUScheduler.remove_process(pid)`: record TERMINATED, drop the pid
from the ready queue and the running slot, delete it from the live
table. -/
def CPUScheduler.remove_process (s : CPUScheduler) (h : Heap) (pid : Nat) :
    Bool × Heap × CPUScheduler :=
  if pid ∈ s.processes then
    let h1 := recordState h pid .TERMINATED (some "Terminado")
    let s1 := { s with ready_queue := s.ready_queue.erase pid }
    let s2 := if s1.running_process = some pid then
        { s1 with running_process := none } else s1
    (true, h1, { s2 with processes := s2.processes.erase pid })
  else (false, h, s)

/-- C7 counterexample data: pid 1 has an empty CPU-burst profile, pid 2 a
head burst of 10000. -/
def sjfDemoHeap : Heap :=
  [(1, { pid := 1, name := "e", priority := 5, state := PState.READY, memory_size := 8,
         memory_address := some 0, cpu_time := 0, cpu_profile := [], io_profile := [],
         history := [], state_flow := [] }),
   (2, { pid := 2, name := "g", priority := 5, state := PState.READY, memory_size := 8,
         memory_address := some 8, cpu_time := 0, cpu_profile := [10000], io_profile := [],
         history := [], state_flow := [] })]

def sjfDemoSched : CPUScheduler :=
  { quantum := 2, ready_queue := [1, 2], running_process := none,
    processes := [1, 2], policy := "SJF" }

/-- C7 counterexample: under SJF the empty-profile process 1 is kept ahead
of process 2 whose head burst is 10000, because the code maps an empty
profile to the sentinel burst 9999 instead of sorting it after every
non-empty profile. -/
theorem sjf_empty_profile_counterexample :
    (sjfDemoSched.sort_by_policy sjfDemoHeap).ready_queue = [1, 2] ∧
    (getP sjfDemoHeap 1).cpu_profile = [] ∧
    (getP sjfDemoHeap 2).cpu_profile ≠ [] := by
  refine ⟨?_, rfl, by decide⟩
  rfl

/-- C7 amended: `_sort_by_policy` re-orders the ready queue as a stable
sort (a permutation, with ties and equal-key elements kept in queue
order): under PRIORITY ascending by the process's numeric priority value
(lowest first), and under SJF ascending by the head element of the CPU
burst profile with an empty profile counted as the sentinel burst 9999
(so an empty profile sorts after every head burst < 9999, not after every
non-empty profile). -/
theorem sort_by_policy_orders (h : Heap) (s : CPUScheduler) :
    (s.policy = "PRIORITY" →
      List.Perm (s.sort_by_policy h).ready_queue s.ready_queue ∧
      (s.sort_by_policy h).ready_queue.Pairwise (fun a b => prioKey h a ≤ prioKey h b) ∧
      ∀ v, (s.sort_by_policy h).ready_queue.filter (fun a => decide (prioKey h a = v)) =
        s.ready_queue.filter (fun a => decide (prioKey h a = v))) ∧
    (s.policy = "SJF" →
      List.Perm (s.sort_by_policy h).ready_queue s.ready_queue ∧
      (s.sort_by_policy h).ready_queue.Pairwise (fun a b => sjfKey h a ≤ sjfKey h b) ∧
      ∀ v, (s.sort_by_policy h).ready_queue.filter (fun a => decide (sjfKey h a = v)) =
        s.ready_queue.filter (fun a => decide (sjfKey h a = v))) := by
  constructor
  · intro hpol
    rw [CPUScheduler.sort_by_policy, if_pos hpol]
    exact ⟨sortedBy_perm _ _, sortedBy_pairwise _ _, fun v => sortedBy_filter _ _ v⟩
  · intro hpol
    have h1 : s.policy ≠ "PRIORITY" := by rw [hpol]; decide
    have h2 : s.policy ≠ "RR" := by rw [hpol]; decide
    have h3 : s.policy ≠ "FIFO" := by rw [hpol]; decide
    rw [CPUScheduler.sort_by_policy, if_neg h1, if_neg h2, if_neg h3, if_pos hpol]
    exact ⟨sortedBy_perm _ _, sortedBy_pairwise _ _, fun v => sortedBy_filter _ _ v⟩

def prioDemoSched : CPUScheduler :=
  { quantum := 2, ready_queue := [2, 1], running_process := none,
    processes := [1, 2], policy := "PRIORITY" }

theorem sort_by_policy_orders_witness :
    (List.Perm (prioDemoSched.sort_by_policy sjfDemoHeap).ready_queue
        prioDemoSched.ready_queue ∧
      (prioDemoSched.sort_by_policy sjfDemoHeap).ready_queue.Pairwise
        (fun a b => prioKey sjfDemoHeap a ≤ prioKey sjfDemoHeap b)) ∧
    (List.Perm (sjfDemoSched.sort_by_policy sjfDemoHeap).ready_queue
        sjfDemoSched.ready_queue ∧
      (sjfDemoSched.sort_by_policy sjfDemoHeap).ready_queue.Pairwise
        (fun a b => sjfKey sjfDemoHeap a ≤ sjfKey sjfDemoHeap b)) :=
  ⟨⟨((sort_by_policy_orders sjfDemoHeap prioDemoSched).1 rfl).1,
    ((sort_by_policy_orders sjfDemoHeap prioDemoSched).1 rfl).2.1⟩,
   ⟨((sort_by_policy_orders sjfDemoHeap sjfDemoSched).2 rfl).1,
    ((sort_by_policy_orders sjfDemoHeap sjfDemoSched).2 rfl).2.1⟩⟩

/-! ### Characterization of `schedule_next` -/

theorem alookup_recordState_self {h : Heap} {pid : Nat} {p : Process}
    (hp : alookup pid h = some p) (st : PState) (note : Option String) :
    alookup pid (recordState h pid st note) =
      some { p with state := st, state_flow := p.state_flow ++ [⟨st, note⟩] } := by
  unfold recordState
  rw [hp]
  exact alookup_aset_self _ _ _

theorem alookup_recordState_other {h : Heap} {pid q : Nat} (st : PState)
    (note : Option String) (hne : pid ≠ q) :
    alookup q (recordState h pid st note) = alookup q h := by
  unfold recordState
  cases hp : alookup pid h with
  | none => rfl
  | some p => exact alookup_aset_ne _ _ hne

theorem recordState_preserves (h : Heap) (pid : Nat) (st : PState)
    (note : Option String) (q : Nat) :
    (alookup q (recordState h pid st note)).isSome = (alookup q h).isSome ∧
    (alookup q (recordState h pid st note)).map Process.cpu_time =
      (alookup q h).map Process.cpu_time := by
  by_cases hq : pid = q
  · subst hq
    cases hp : alookup pid h with
    | none =>
      unfold recordState
      rw [hp]
      simp [hp]
    | some p =>
      rw [alookup_recordState_self hp]
      simp [hp]
  · rw [alookup_recordState_other _ _ hq]
    exact ⟨rfl, rfl⟩

theorem sort_by_policy_fields (s : CPUScheduler) (h : Heap) :
    (s.sort_by_policy h).running_process = s.running_process ∧
    (s.sort_by_policy h).quantum = s.quantum ∧
    (s.sort_by_policy h).processes = s.processes ∧
    (s.sort_by_policy h).policy = s.policy := by
  unfold CPUScheduler.sort_by_policy
  repeat' split
  all_goals exact ⟨rfl, rfl, rfl, rfl⟩

theorem requeue_running_spec (s : CPUScheduler) (h : Heap) :
    (s.requeue_running h).2.ready_queue =
      s.ready_queue ++ (match s.running_process with
        | some r => if (getP h r).state = PState.RUNNING then [r] else []
        | none => []) ∧
    (s.requeue_running h).2.running_process = s.running_process ∧
    (∀ q, (alookup q (s.requeue_running h).1).isSome = (alookup q h).isSome ∧
      (alookup q (s.requeue_running h).1).map Process.cpu_time =
        (alookup q h).map Process.cpu_time) ∧
    ∀ r pr, s.running_process = some r → (getP h r).state = PState.RUNNING →
      alookup r h = some pr →
      alookup r (s.requeue_running h).1 =
        some { pr with
               state := .READY
               state_flow := pr.state_flow ++ [⟨.READY, some "Devuelto a READY"⟩] } := by
  unfold CPUScheduler.requeue_running
  rcases hrun : s.running_process with - | r
  · simp [hrun]
  · simp only [hrun]
    split
    · refine ⟨rfl, rfl, fun q => recordState_preserves h r .READY _ q, ?_⟩
      intro r' pr hr' hst' hpr
      injection hr' with hre
      subst hre
      exact alookup_recordState_self hpr _ _
    · rename_i hst
      refine ⟨by simp, hrun, fun q => ⟨rfl, rfl⟩, ?_⟩
      intro r' pr hr' hst' hpr
      injection hr' with hre
      subst hre
      exact absurd hst' hst

theorem alookup_bumpCpu_other {h : Heap} {pid q : Nat} (qt : Nat) (hne : pid ≠ q) :
    alookup q (bumpCpu h pid qt) = alookup q h := by
  unfold bumpCpu
  cases hp : alookup pid h with
  | none => rfl
  | some pr => exact alookup_aset_ne _ _ hne

theorem dispatch_head_spec (s : CPUScheduler) (h : Heap) (quantum : Nat) :
    (s.ready_queue = [] → s.dispatch_head h quantum = (none, h, s)) ∧
    (∀ p rest, s.ready_queue = p :: rest →
      (s.dispatch_head h quantum).1 = some p ∧
      (s.dispatch_head h quantum).2.2.ready_queue = rest ∧
      (s.dispatch_head h quantum).2.2.running_process = some p ∧
      (∀ pr, alookup p h = some pr →
        (getP (s.dispatch_head h quantum).2.1 p).state = PState.RUNNING ∧
        (getP (s.dispatch_head h quantum).2.1 p).cpu_time = pr.cpu_time + quantum) ∧
      (∀ pr, alookup p h = some pr →
        alookup p (s.dispatch_head h quantum).2.1 =
          some { pr with
                 state := .RUNNING
                 state_flow := pr.state_flow ++ [⟨.RUNNING, some "Ejecutando en CPU"⟩]
                 cpu_time := pr.cpu_time + quantum }) ∧
      (∀ q pr, q ≠ p → alookup q h = some pr →
        alookup q (s.dispatch_head h quantum).2.1 = some pr)) := by
  constructor
  · intro hq
    unfold CPUScheduler.dispatch_head
    rw [hq]
  · intro p rest hq
    have hd : s.dispatch_head h quantum =
        (some p,
         bumpCpu (recordState h p .RUNNING (some "Ejecutando en CPU")) p quantum,
         { s with ready_queue := rest, running_process := some p }) := by
      unfold CPUScheduler.dispatch_head
      rw [hq]
    rw [hd]
    refine ⟨rfl, rfl, rfl, ?_, ?_, ?_⟩
    · intro pr hpr
      have h3 := alookup_recordState_self hpr PState.RUNNING (some "Ejecutando en CPU")
      unfold bumpCpu
      rw [h3]
      unfold getP
      rw [alookup_aset_self]
      exact ⟨rfl, rfl⟩
    · intro pr hpr
      have h3 := alookup_recordState_self hpr PState.RUNNING (some "Ejecutando en CPU")
      unfold bumpCpu
      rw [h3]
      exact alookup_aset_self _ _ _
    · intro q pr hqp hpr
      have h3 : alookup q (recordState h p .RUNNING (some "Ejecutando en CPU")) =
          alookup q h := alookup_recordState_other _ _ (fun he => hqp he.symm)
      rw [alookup_bumpCpu_other quantum (fun he => hqp he.symm), h3]
      exact hpr

/-- The list `schedule_next` actually pops from: the policy-sorted ready
queue, with the preempted process appended at the tail afterwards, and
only when its recorded state is RUNNING. -/
def dispatchQueue (s : CPUScheduler) (h : Heap) : List Nat :=
  (s.sort_by_policy h).ready_queue ++
    (match s.running_process with
     | some r => if (getP h r).state = PState.RUNNING then [r] else []
     | none => [])

/-- C2 amended: `schedule_next` first re-orders the ready queue per the
active policy, then — only if a process occupies the running slot and its
recorded state is RUNNING — returns it to READY and appends it to the
tail of the already-sorted queue without re-sorting, then pops the head
of that list as the new running process, transitions it to RUNNING,
credits it exactly `quantum` CPU-time units and returns it; it returns
None (leaving the running slot unchanged) when that list is empty.  The
popped head therefore need not respect the policy ordering relative to
the just-requeued preempted process. -/
theorem schedule_next_characterization (s : CPUScheduler) (h : Heap) :
    (dispatchQueue s h = [] →
      (s.schedule_next h).1 = none ∧
      (s.schedule_next h).2.2.running_process = s.running_process) ∧
    (∀ p rest, dispatchQueue s h = p :: rest →
      (s.schedule_next h).1 = some p ∧
      (s.schedule_next h).2.2.ready_queue = rest ∧
      (s.schedule_next h).2.2.running_process = some p ∧
      ((alookup p h).isSome →
        (getP (s.schedule_next h).2.1 p).state = PState.RUNNING ∧
        (getP (s.schedule_next h).2.1 p).cpu_time = (getP h p).cpu_time + s.quantum) ∧
      ∀ r pr0, s.running_process = some r → (getP h r).state = PState.RUNNING →
        alookup r h = some pr0 →
        (p ≠ r → (getP (s.schedule_next h).2.1 r).state = PState.READY) ∧
        ∃ fl, (getP (s.schedule_next h).2.1 r).state_flow =
          pr0.state_flow ++ ⟨PState.READY, some "Devuelto a READY"⟩ :: fl) := by
  have hEq : s.schedule_next h =
      ((s.sort_by_policy h).requeue_running h).2.dispatch_head
        ((s.sort_by_policy h).requeue_running h).1 s.quantum := rfl
  obtain ⟨hq, hr, hheap, hreq⟩ := requeue_running_spec (s.sort_by_policy h) h
  have hdq : dispatchQueue s h = ((s.sort_by_policy h).requeue_running h).2.ready_queue := by
    rw [hq, (sort_by_policy_fields s h).1]
    rfl
  obtain ⟨hnil, hcons⟩ := dispatch_head_spec ((s.sort_by_policy h).requeue_running h).2
    ((s.sort_by_policy h).requeue_running h).1 s.quantum
  constructor
  · intro hdqe
    rw [hdq] at hdqe
    rw [hEq, hnil hdqe]
    refine ⟨rfl, ?_⟩
    rw [hr, (sort_by_policy_fields s h).1]
  · intro p rest hdqc
    rw [hdq] at hdqc
    obtain ⟨h1, h2, h3, h4, h5, h6⟩ := hcons p rest hdqc
    rw [hEq]
    refine ⟨h1, h2, h3, ?_, ?_⟩
    · intro hsome
      obtain ⟨hpres, hcpu⟩ := hheap p
      rw [← hpres] at hsome
      rw [Option.isSome_iff_exists] at hsome
      obtain ⟨pr, hpr⟩ := hsome
      obtain ⟨hst, hct⟩ := h4 pr hpr
      refine ⟨hst, ?_⟩
      rw [hct]
      have : (getP h p).cpu_time = pr.cpu_time := by
        rw [hpr] at hcpu
        unfold getP
        cases hph : alookup p h with
        | none =>
          rw [hph] at hcpu
          simp at hcpu
        | some pr0 =>
          rw [hph] at hcpu
          simp at hcpu
          rw [hcpu]
          rfl
      rw [this]
    · intro r pr0 hrun hstate hpr0
      have hrun' : (s.sort_by_policy h).running_process = some r := by
        rw [(sort_by_policy_fields s h).1]
        exact hrun
      have hreqr := hreq r pr0 hrun' hstate hpr0
      by_cases hp2 : p = r
      · subst hp2
        have hfin := h5 _ hreqr
        constructor
        · intro hne
          exact absurd rfl hne
        · refine ⟨[⟨PState.RUNNING, some "Ejecutando en CPU"⟩], ?_⟩
          unfold getP
          rw [hfin]
          simp
      · have hfin := h6 r _ (fun he => hp2 he.symm) hreqr
        constructor
        · intro hne
          unfold getP
          rw [hfin]
          rfl
        · refine ⟨[], ?_⟩
          unfold getP
          rw [hfin]
          simp

/-- C2 counterexample data: pid 1 is RUNNING with priority 0; pid 2 is
READY in the queue with priority 5. -/
def c2Heap : Heap :=
  [(1, { pid := 1, name := "a", priority := 0, state := PState.RUNNING, memory_size := 8,
         memory_address := some 0, cpu_time := 0, cpu_profile := [2, 2], io_profile := [1],
         history := [], state_flow := [] }),
   (2, { pid := 2, name := "b", priority := 5, state := PState.READY, memory_size := 8,
         memory_address := some 8, cpu_time := 0, cpu_profile := [2, 2], io_profile := [1],
         history := [], state_flow := [] })]

def c2Sched : CPUScheduler :=
  { quantum := 2, ready_queue := [2], running_process := some 1,
    processes := [1, 2], policy := "PRIORITY" }

/-- Like `c2Heap` but pid 1's recorded state is WAITING. -/
def c2HeapW : Heap :=
  [(1, { pid := 1, name := "a", priority := 0, state := PState.WAITING, memory_size := 8,
         memory_address := some 0, cpu_time := 0, cpu_profile := [2, 2], io_profile := [1],
         history := [], state_flow := [] }),
   (2, { pid := 2, name := "b", priority := 5, state := PState.READY, memory_size := 8,
         memory_address := some 8, cpu_time := 0, cpu_profile := [2, 2], io_profile := [1],
         history := [], state_flow := [] })]

/-- C2 counterexample: (a) under PRIORITY, `schedule_next` pops pid 2
(priority 5) although the just-requeued preempted pid 1 has the strictly
lower priority value 0 — the queue is sorted before the preempted process
is appended, so the popped head does not respect the policy ordering over
the queue that includes it; (b) a running process whose recorded state is
not RUNNING (here WAITING) is not returned to the ready queue at all. -/
theorem schedule_next_counterexample :
    ((c2Sched.schedule_next c2Heap).1 = some 2 ∧
      prioKey c2Heap 1 < prioKey c2Heap 2 ∧
      (c2Sched.schedule_next c2Heap).2.2.ready_queue = [1]) ∧
    ((c2Sched.schedule_next c2HeapW).1 = some 2 ∧
      (c2Sched.schedule_next c2HeapW).2.2.ready_queue = []) := by
  refine ⟨⟨?_, by decide, ?_⟩, ⟨?_, ?_⟩⟩ <;> rfl

theorem schedule_next_characterization_witness :
    dispatchQueue c2Sched c2Heap = 2 :: [1] ∧
    (c2Sched.schedule_next c2Heap).1 = some 2 ∧
    (c2Sched.schedule_next c2Heap).2.2.ready_queue = [1] ∧
    (c2Sched.schedule_next c2Heap).2.2.running_process = some 2 ∧
    (getP (c2Sched.schedule_next c2Heap).2.1 2).state = PState.RUNNING ∧
    (getP (c2Sched.schedule_next c2Heap).2.1 2).cpu_time = (getP c2Heap 2).cpu_time + 2 ∧
    (getP (c2Sched.schedule_next c2Heap).2.1 1).state = PState.READY ∧
    ∃ fl, (getP (c2Sched.schedule_next c2Heap).2.1 1).state_flow =
      (getP c2Heap 1).state_flow ++ ⟨PState.READY, some "Devuelto a READY"⟩ :: fl := by
  have h := (schedule_next_characterization c2Sched c2Heap).2 2 [1] (by rfl)
  obtain ⟨h1, h2, h3, h4, hrq⟩ := h
  obtain ⟨h5, h6⟩ := h4 (by rfl)
  obtain ⟨h7, h8⟩ := hrq 1 (getP c2Heap 1) rfl rfl rfl
  exact ⟨rfl, h1, h2, h3, h5, h6, h7 (by decide), h8⟩

/-! ## Orchestrator (`sim_os/os_sim.py`, class `OperatingSystem`)

`procs` is the object heap holding every `Process` ever constructed; the
scheduler's live table and the archive hold pids into it.  `next_pid`
models the `Process._next_pid` class counter.  The security manager's
integrity registry stores a digest of the content; since no property
observes the digest value the sha256 is abstracted as the content string
itself.  The filesystem and I/O collaborators, and `run_scheduler_cycle`
/ `trigger_irq` (whose behaviour depends on `random`), are outside the
claims and are not modelled. -/

structure OperatingSystem where
  procs : Heap
  memory_manager : MemoryManager
  cpu_scheduler : CPUScheduler
  virtual_memory : VirtualMemoryManager
  next_pid : Nat
  timeline : List Event
  timeline_step : Nat
  process_archive : List Nat
  integrity_registry : List (String × String)
deriving DecidableEq, Repr

/-- `OperatingSystem.__init__()`, with `Process._next_pid` at its initial
value 1. -/
def OperatingSystem.init : OperatingSystem :=
  { procs := [], memory_manager := MemoryManager.init 1024,
    cpu_scheduler := CPUScheduler.init 2 "RR",
    virtual_memory := VirtualMemoryManager.init 64 16,
    next_pid := 1, timeline := [], timeline_step := 1,
    process_archive := [], integrity_registry := [] }

/-- `OperatingSystem.log_event(category, message, process, metadata)`:
append a timeline event, advance the step counter and, when a process is
given, append the same event to its history. -/
def OperatingSystem.log_event (os : OperatingSystem) (category message : String)
    (pid : Option Nat) (metadata : List (String × Int)) : OperatingSystem :=
  let event : Event :=
    { step := os.timeline_step
      category := category.toUpper
      message := message
      metadata := metadata
      pid := pid }
  let os1 := { os with
               timeline_step := os.timeline_step + 1
               timeline := os.timeline ++ [event] }
  match pid with
  | some p =>
    match alookup p os1.procs with
    | some pr => { os1 with procs := aset p { pr with history := pr.history ++ [event] } os1.procs }
    | none => os1
  | none => os1

/-- `OperatingSystem.create_process(name, priority, memory_size)`.  The
randomly generated burst profiles are the `cpu_profile` / `io_profile`
parameters. -/
def OperatingSystem.create_process (os : OperatingSystem) (name : String) (priority : Int)
    (memory_size : Nat) (cpu_profile io_profile : List Nat) :
    (Option Nat × String) × OperatingSystem :=
  if os.memory_manager.available_memory < memory_size then
    ((none, "Memoria insuficiente"),
     os.log_event "PROCESO" (s!"Fallo al crear: memoria insuficiente " ++ name)
       none [("memoria", (memory_size : Int))])
  else
    let pid := os.next_pid
    let p : Process :=
      { pid := pid, name := name, priority := priority, state := .NEW,
        memory_size := memory_size, memory_address := none, cpu_time := 0,
        cpu_profile := cpu_profile, io_profile := io_profile,
        history := [], state_flow := [] }
    let os1 := { os with next_pid := os.next_pid + 1, procs := aset pid p os.procs }
    let os2 := { os1 with procs := recordState os1.procs pid .NEW (some "Proceso creado") }
    match os2.memory_manager.allocate memory_size pid with
    | (none, m) =>
      ((none, "Error al asignar memoria"),
       ({ os2 with memory_manager := m } : OperatingSystem).log_event
         "PROCESO" (s!"Fallo al asignar memoria a " ++ name)
         none [("memoria", (memory_size : Int))])
    | (some address, m) =>
      let os3 : OperatingSystem :=
        { os2 with
          memory_manager := m
          procs :=
            match alookup pid os2.procs with
            | some pr => aset pid { pr with memory_address := some address } os2.procs
            | none => os2.procs }
      let pv := os3.virtual_memory.create_space pid memory_size
      let os4 := { os3 with virtual_memory := pv.2 }
      let os5 := os4.log_event "MEMORIA"
        (s!"Espacio virtual creado para PID {pid}") (some pid) []
      let os6 := { os5 with
        integrity_registry := aset (s!"process_{pid}") name os5.integrity_registry }
      let hs := os6.cpu_scheduler.add_process os6.procs pid
      let os7 := { os6 with procs := hs.1, cpu_scheduler := hs.2 }
      let os8 := os7.log_event "PROCESO"
        (s!"Creado proceso (PID {pid}) " ++ name) (some pid) [("prioridad", priority)]
      let os9 := os8.log_event "MEMORIA"
        (s!"Asignados {memory_size} KB a PID {pid}") (some pid)
        [("direccion", (address : Int))]
      ((some pid, s!"Proceso (PID: {pid}) creado exitosamente " ++ name), os9)

/-- The `if process.memory_address is not None:` block of `kill_process`:
deallocate the physical block, log the release, release the virtual
space. -/
def killRelease (os : OperatingSystem) (pid : Nat) (p : Process) (address : Nat) :
    OperatingSystem :=
  let osa := { os with memory_manager := (os.memory_manager.deallocate address).2 }
  let osb := osa.log_event "MEMORIA"
    (s!"Liberados {p.memory_size} KB de PID {pid}") (some pid)
    [("direccion", (address : Int))]
  { osb with virtual_memory := osb.virtual_memory.release_space pid }

/-- The tail of `kill_process`: log termination, archive the process
object, remove the pid from the scheduler. -/
def killFinish (os1 : OperatingSystem) (pid : Nat) : OperatingSystem :=
  let os2 := os1.log_event "PROCESO" (s!"Proceso PID {pid} terminado") (some pid) []
  let os3 := { os2 with process_archive := dinsert pid os2.process_archive }
  { os3 with
    procs := (os3.cpu_scheduler.remove_process os3.procs pid).2.1
    cpu_scheduler := (os3.cpu_scheduler.remove_process os3.procs pid).2.2 }

/-- `OperatingSystem.kill_process(pid)`:  deallocate, release the virtual
space, log, archive, and remove the process from the scheduler. -/
def OperatingSystem.kill_process (os : OperatingSystem) (pid : Nat) :
    (Bool × String) × OperatingSystem :=
  if pid ∈ os.cpu_scheduler.processes then
    let p := getP os.procs pid
    let os1 :=
      match p.memory_address with
      | some address => killRelease os pid p address
      | none => os
    ((true, s!"Proceso PID {pid} terminado"), killFinish os1 pid)
  else ((false, "Proceso no encontrado"), os)

/-- `OperatingSystem.find_process(pid)`: the live table first, then the
archive (`processes.get(pid) or process_archive.get(pid)`). -/
def OperatingSystem.find_process (os : OperatingSystem) (pid : Nat) : Option Process :=
  if pid ∈ os.cpu_scheduler.processes then alookup pid os.procs
  else if pid ∈ os.process_archive then alookup pid os.procs
  else none

/-- `OperatingSystem.get_process_history(pid)`. -/
def OperatingSystem.get_process_history (os : OperatingSystem) (pid : Nat) :
    Option (List Event) :=
  match os.find_process pid with
  | none => none
  | some p => some p.history

theorem allocate_fst_some {m : MemoryManager} {size pid : Nat}
    (h : ¬ m.available_memory < size) :
    (m.allocate size pid).1 = some m.next_address := by
  unfold MemoryManager.allocate
  rw [if_neg h]

/-- C1: a failed `create_process` leaves every core component exactly as
before the call: the allocator (available memory, ledger and cursor), the
page tables, the scheduler's live table, ready queue and running slot,
and the process-id counter.  (Only the event timeline records the
failure.) -/
theorem create_process_failure_atomic (os : OperatingSystem) (name : String)
    (priority : Int) (memory_size : Nat) (cpu_profile io_profile : List Nat)
    (hfail : (os.create_process name priority memory_size cpu_profile io_profile).1.1 = none) :
    (os.create_process name priority memory_size cpu_profile io_profile).2.memory_manager =
      os.memory_manager ∧
    (os.create_process name priority memory_size cpu_profile io_profile).2.virtual_memory.page_tables =
      os.virtual_memory.page_tables ∧
    (os.create_process name priority memory_size cpu_profile io_profile).2.cpu_scheduler.processes =
      os.cpu_scheduler.processes ∧
    (os.create_process name priority memory_size cpu_profile io_profile).2.cpu_scheduler.ready_queue =
      os.cpu_scheduler.ready_queue ∧
    (os.create_process name priority memory_size cpu_profile io_profile).2.cpu_scheduler.running_process =
      os.cpu_scheduler.running_process ∧
    (os.create_process name priority memory_size cpu_profile io_profile).2.next_pid =
      os.next_pid := by
  unfold OperatingSystem.create_process at hfail ⊢
  by_cases hav : os.memory_manager.available_memory < memory_size
  · rw [if_pos hav]
    exact ⟨rfl, rfl, rfl, rfl, rfl, rfl⟩
  · rw [if_neg hav] at hfail
    exfalso
    simp only [] at hfail
    split at hfail
    · rename_i m heq
      have h2 := @allocate_fst_some os.memory_manager memory_size os.next_pid hav
      rw [show ({ os with
            next_pid := os.next_pid + 1
            procs := recordState (aset os.next_pid
              { pid := os.next_pid, name := name, priority := priority, state := .NEW,
                memory_size := memory_size, memory_address := none, cpu_time := 0,
                cpu_profile := cpu_profile, io_profile := io_profile,
                history := [], state_flow := [] } os.procs) os.next_pid .NEW
              (some "Proceso creado") } : OperatingSystem).memory_manager
          = os.memory_manager from rfl] at heq
      rw [heq] at h2
      simp at h2
    · simp at hfail

theorem create_process_failure_atomic_witness :
    (OperatingSystem.init.create_process "x" 5 2000 [] []).1.1 = none ∧
    (OperatingSystem.init.create_process "x" 5 2000 [] []).2.memory_manager =
      OperatingSystem.init.memory_manager ∧
    (OperatingSystem.init.create_process "x" 5 2000 [] []).2.next_pid =
      OperatingSystem.init.next_pid :=
  ⟨rfl,
    (create_process_failure_atomic OperatingSystem.init "x" 5 2000 [] [] rfl).1,
    (create_process_failure_atomic OperatingSystem.init "x" 5 2000 [] [] rfl).2.2.2.2.2⟩

/-- C9: from the fresh system (total memory 1024, page size 16),
`create_process("w", 5, 256)` succeeds with pid 1, a 16-page virtual
space and physical address 0, leaving 768 KB available; the following
`create_process("x", 5, 900)` fails with the insufficient-memory message
and leaves 768 KB available — for every random burst profile. -/
theorem end_to_end_scenario (prof1 io1 prof2 io2 : List Nat) :
    (OperatingSystem.init.create_process "w" 5 256 prof1 io1).1.1 = some 1 ∧
    ((alookup 1 (OperatingSystem.init.create_process "w" 5 256 prof1 io1).2.virtual_memory.page_tables).map
        PageTable.pages) = some 16 ∧
    (getP (OperatingSystem.init.create_process "w" 5 256 prof1 io1).2.procs 1).memory_address =
      some 0 ∧
    (OperatingSystem.init.create_process "w" 5 256 prof1 io1).2.memory_manager.available_memory =
      768 ∧
    ((OperatingSystem.init.create_process "w" 5 256 prof1 io1).2.create_process
        "x" 5 900 prof2 io2).1.1 = none ∧
    ((OperatingSystem.init.create_process "w" 5 256 prof1 io1).2.create_process
        "x" 5 900 prof2 io2).1.2 = "Memoria insuficiente" ∧
    ((OperatingSystem.init.create_process "w" 5 256 prof1 io1).2.create_process
        "x" 5 900 prof2 io2).2.memory_manager.available_memory = 768 := by
  set_option maxRecDepth 100000 in
  refine ⟨rfl, ?_, ?_, rfl, rfl, rfl, rfl⟩
  · have hpt : (OperatingSystem.init.create_process "w" 5 256 prof1 io1).2.virtual_memory.page_tables =
        [((1 : Nat), (⟨max 1 ((256 + (16 : Nat) - 1) / 16), [], 0⟩ : PageTable))] := rfl
    rw [hpt]
    rfl
  · have hpr : alookup 1 (OperatingSystem.init.create_process "w" 5 256 prof1 io1).2.procs =
        some { pid := 1, name := "w", priority := 5, state := PState.READY,
               memory_size := 256, memory_address := some 0, cpu_time := 0,
               cpu_profile := prof1, io_profile := io1,
               history := (OperatingSystem.init.create_process "w" 5 256 prof1 io1).2.procs.head!.2.history,
               state_flow := (OperatingSystem.init.create_process "w" 5 256 prof1 io1).2.procs.head!.2.state_flow } := rfl
    unfold getP
    rw [hpr]
    rfl

/-! ### Termination cleanup (`kill_process`) -/

theorem log_event_fields (os : OperatingSystem) (c m : String) (pid : Option Nat)
    (md : List (String × Int)) :
    (os.log_event c m pid md).cpu_scheduler = os.cpu_scheduler ∧
    (os.log_event c m pid md).memory_manager = os.memory_manager ∧
    (os.log_event c m pid md).virtual_memory = os.virtual_memory ∧
    (os.log_event c m pid md).process_archive = os.process_archive ∧
    (os.log_event c m pid md).next_pid = os.next_pid := by
  unfold OperatingSystem.log_event
  rcases pid with - | p
  · exact ⟨rfl, rfl, rfl, rfl, rfl⟩
  · simp only []
    split
    · exact ⟨rfl, rfl, rfl, rfl, rfl⟩
    · exact ⟨rfl, rfl, rfl, rfl, rfl⟩

theorem alookup_log_event_self {os : OperatingSystem} {pid : Nat} {p : Process}
    (hp : alookup pid os.procs = some p) (c m : String) (md : List (String × Int)) :
    alookup pid (os.log_event c m (some pid) md).procs =
      some { p with history := p.history ++
        [⟨os.timeline_step, c.toUpper, m, md, some pid⟩] } := by
  unfold OperatingSystem.log_event
  simp only []
  rw [show alookup pid
      ({ os with
         timeline_step := os.timeline_step + 1
         timeline := os.timeline ++
           [⟨os.timeline_step, c.toUpper, m, md, some pid⟩] } : OperatingSystem).procs
    = some p from hp]
  exact alookup_aset_self _ _ _

theorem not_mem_erase_of_count_le_one {l : List Nat} {a : Nat}
    (h : l.count a ≤ 1) : a ∉ l.erase a := by
  intro hmem
  have := List.count_erase_self a l
  have hpos : 0 < (l.erase a).count a := List.count_pos_iff.mpr hmem
  omega

theorem alookup_none_of_not_mem_keys {κ α : Type} [DecidableEq κ] {k : κ}
    {l : List (κ × α)} (h : k ∉ l.map Prod.fst) : alookup k l = none := by
  induction l with
  | nil => rfl
  | cons hd t ih =>
    rw [List.map_cons, List.mem_cons] at h
    push_neg at h
    rw [alookup, if_neg (fun he => h.1 he.symm)]
    exact ih h.2

theorem alookup_aerase_self_nodup {κ α : Type} [DecidableEq κ] {k : κ}
    {l : List (κ × α)} (h : (l.map Prod.fst).Nodup) :
    alookup k (aerase k l) = none := by
  induction l with
  | nil => rfl
  | cons hd t ih =>
    rw [List.map_cons, List.nodup_cons] at h
    by_cases hk : hd.1 = k
    · rw [aerase, if_pos hk]
      exact alookup_none_of_not_mem_keys (hk ▸ h.1)
    · rw [aerase, if_neg hk, alookup, if_neg hk]
      exact ih h.2

theorem releaseFold_page_tables (mapping : List (Int × Nat)) :
    ∀ v : VirtualMemoryManager, (mapping.foldl releaseStep v).page_tables = v.page_tables := by
  induction mapping with
  | nil => intro v; rfl
  | cons e t ih =>
    intro v
    rw [List.foldl_cons, ih]
    rfl

theorem releaseFold_free_sub (mapping : List (Int × Nat)) :
    ∀ v : VirtualMemoryManager, ∀ f ∈ v.free_frames,
      f ∈ (mapping.foldl releaseStep v).free_frames := by
  induction mapping with
  | nil => intro v f hf; exact hf
  | cons e t ih =>
    intro v f hf
    rw [List.foldl_cons]
    refine ih _ f ?_
    unfold releaseStep
    simp [hf]

theorem releaseFold_free_mem (mapping : List (Int × Nat)) :
    ∀ v : VirtualMemoryManager, ∀ e ∈ mapping,
      e.2 ∈ (mapping.foldl releaseStep v).free_frames := by
  induction mapping with
  | nil => intro v e he; simp at he
  | cons hd t ih =>
    intro v e he
    rw [List.foldl_cons]
    rcases List.mem_cons.mp he with rfl | hmem
    · refine releaseFold_free_sub t _ e.2 ?_
      unfold releaseStep
      simp
    · exact ih _ e hmem

/-- `release_space(pid)` removes the pid's page table and returns every
frame of its mapping to the free pool. -/
theorem release_space_spec (v : VirtualMemoryManager) (pid : Nat)
    (hnd : (v.page_tables.map Prod.fst).Nodup) :
    alookup pid (v.release_space pid).page_tables = none ∧
    ∀ t, alookup pid v.page_tables = some t →
      ∀ e ∈ t.mapping, e.2 ∈ (v.release_space pid).free_frames := by
  unfold VirtualMemoryManager.release_space
  cases ht : alookup pid v.page_tables with
  | none =>
    simp only []
    exact ⟨ht, fun t htt => by simp at htt⟩
  | some t =>
    simp only []
    constructor
    · rw [releaseFold_page_tables]
      exact alookup_aerase_self_nodup hnd
    · intro t' ht'
      have heq : t = t' := Option.some.inj ht'
      subst heq
      intro e he
      show e.2 ∈ (t.mapping.foldl releaseStep v).free_frames
      exact releaseFold_free_mem t.mapping v e he

theorem recordState_history (h : Heap) (pid : Nat) (st : PState)
    (note : Option String) (q : Nat) :
    (alookup q (recordState h pid st note)).map Process.history =
      (alookup q h).map Process.history := by
  by_cases hq : pid = q
  · subst hq
    cases hp : alookup pid h with
    | none =>
      unfold recordState
      rw [hp]
      simp [hp]
    | some p =>
      rw [alookup_recordState_self hp]
      simp [hp]
  · rw [alookup_recordState_other _ _ hq]

/-- `remove_process(pid)` on a live pid: the pid leaves the live table,
the ready queue and the running slot; process histories are untouched. -/
theorem remove_process_spec (s : CPUScheduler) (h : Heap) (pid : Nat)
    (hlive : pid ∈ s.processes) :
    (s.remove_process h pid).2.2.processes = s.processes.erase pid ∧
    (s.remove_process h pid).2.2.ready_queue = s.ready_queue.erase pid ∧
    (s.remove_process h pid).2.2.running_process ≠ some pid ∧
    ∀ q, (alookup q (s.remove_process h pid).2.1).map Process.history =
      (alookup q h).map Process.history := by
  unfold CPUScheduler.remove_process
  rw [if_pos hlive]
  simp only []
  by_cases hrp : s.running_process = some pid
  · rw [if_pos (by exact hrp)]
    refine ⟨rfl, rfl, by simp, fun q => recordState_history h pid .TERMINATED _ q⟩
  · rw [if_neg (by exact hrp)]
    refine ⟨rfl, rfl, by simpa using hrp, fun q => recordState_history h pid .TERMINATED _ q⟩

theorem killRelease_spec (os : OperatingSystem) (pid : Nat) (p : Process) (address : Nat)
    (hp : alookup pid os.procs = some p) :
    (killRelease os pid p address).cpu_scheduler = os.cpu_scheduler ∧
    (killRelease os pid p address).virtual_memory = os.virtual_memory.release_space pid ∧
    (killRelease os pid p address).process_archive = os.process_archive ∧
    ∃ ev, alookup pid (killRelease os pid p address).procs =
      some { p with history := p.history ++ [ev] } := by
  unfold killRelease
  simp only []
  have hfields := log_event_fields
    ({ os with memory_manager := (os.memory_manager.deallocate address).2 } : OperatingSystem)
    "MEMORIA" (s!"Liberados {p.memory_size} KB de PID {pid}") (some pid)
    [("direccion", (address : Int))]
  refine ⟨hfields.1, ?_, hfields.2.2.2.1, ?_⟩
  · rw [hfields.2.2.1]
  · exact ⟨_, @alookup_log_event_self
      { os with memory_manager := (os.memory_manager.deallocate address).2 }
      pid p hp _ _ _⟩

theorem mem_dinsert_self (k : Nat) (l : List Nat) : k ∈ dinsert k l := by
  unfold dinsert
  by_cases hk : k ∈ l
  · rw [if_pos hk]
    exact hk
  · rw [if_neg hk]
    simp

/-- C8: killing a live process removes it from the live table, the ready
queue and the running slot, removes its page table and returns every
frame mapped by it to the free pool, and `get_process_history` still
serves its recorded events (extended by the kill-time log entries) from
the archive.  The hypotheses state what holds of every state the
orchestrator can actually reach: the process has a physical base address,
occurs at most once in the live table and the ready queue, and page-table
keys are unique. -/
theorem kill_process_cleanup (os : OperatingSystem) (pid : Nat) (p : Process) (address : Nat)
    (hlive : pid ∈ os.cpu_scheduler.processes)
    (hp : alookup pid os.procs = some p)
    (haddr : p.memory_address = some address)
    (hcnt : os.cpu_scheduler.processes.count pid ≤ 1)
    (hcntq : os.cpu_scheduler.ready_queue.count pid ≤ 1)
    (hnd : (os.virtual_memory.page_tables.map Prod.fst).Nodup) :
    pid ∉ (os.kill_process pid).2.cpu_scheduler.processes ∧
    pid ∉ (os.kill_process pid).2.cpu_scheduler.ready_queue ∧
    (os.kill_process pid).2.cpu_scheduler.running_process ≠ some pid ∧
    alookup pid (os.kill_process pid).2.virtual_memory.page_tables = none ∧
    (∀ t, alookup pid os.virtual_memory.page_tables = some t →
      ∀ e ∈ t.mapping, e.2 ∈ (os.kill_process pid).2.virtual_memory.free_frames) ∧
    ∃ rest, (os.kill_process pid).2.get_process_history pid = some (p.history ++ rest) := by
  have hgp : getP os.procs pid = p := by
    unfold getP
    rw [hp]
    rfl
  have hkp : (os.kill_process pid).2 = killFinish (killRelease os pid p address) pid := by
    unfold OperatingSystem.kill_process
    rw [if_pos hlive]
    simp only []
    rw [hgp, haddr]
  obtain ⟨hsched1, hvm1, harch1, ev1, hproc1⟩ := killRelease_spec os pid p address hp
  have hfields2 := log_event_fields (killRelease os pid p address)
    "PROCESO" (s!"Proceso PID {pid} terminado") (some pid) []
  have hproc2 := alookup_log_event_self hproc1
    "PROCESO" (s!"Proceso PID {pid} terminado") []
  have hlive2 : pid ∈
      ((killRelease os pid p address).log_event "PROCESO"
        (s!"Proceso PID {pid} terminado") (some pid) []).cpu_scheduler.processes := by
    rw [hfields2.1, hsched1]
    exact hlive
  obtain ⟨hrm1, hrm2, hrm3, hrm4⟩ := remove_process_spec
    ((killRelease os pid p address).log_event "PROCESO"
      (s!"Proceso PID {pid} terminado") (some pid) []).cpu_scheduler
    ((killRelease os pid p address).log_event "PROCESO"
      (s!"Proceso PID {pid} terminado") (some pid) []).procs pid hlive2
  rw [hkp]
  unfold killFinish
  simp only []
  refine ⟨?_, ?_, ?_, ?_, ?_, ?_⟩
  · rw [hrm1, hfields2.1, hsched1]
    exact not_mem_erase_of_count_le_one hcnt
  · rw [hrm2, hfields2.1, hsched1]
    exact not_mem_erase_of_count_le_one hcntq
  · exact hrm3
  · rw [hfields2.2.2.1, hvm1]
    exact (release_space_spec os.virtual_memory pid hnd).1
  · intro t ht e he
    rw [hfields2.2.2.1, hvm1]
    exact (release_space_spec os.virtual_memory pid hnd).2 t ht e he
  · have hmap := hrm4 pid
    rw [hproc2] at hmap
    simp only [Option.map_some'] at hmap
    cases hlook : alookup pid
        (((killRelease os pid p address).log_event "PROCESO"
          (s!"Proceso PID {pid} terminado") (some pid) []).cpu_scheduler.remove_process
          ((killRelease os pid p address).log_event "PROCESO"
            (s!"Proceso PID {pid} terminado") (some pid) []).procs pid).2.1 with
    | none =>
      rw [hlook] at hmap
      simp at hmap
    | some p3 =>
      rw [hlook] at hmap
      simp only [Option.map_some', Option.some.injEq] at hmap
      refine ⟨[ev1] ++
        [⟨((killRelease os pid p address)).timeline_step, "PROCESO".toUpper,
          s!"Proceso PID {pid} terminado", [], some pid⟩], ?_⟩
      unfold OperatingSystem.get_process_history OperatingSystem.find_process
      simp only []
      rw [if_neg ?hnotlive]
      case hnotlive =>
        rw [hrm1, hfields2.1, hsched1]
        exact not_mem_erase_of_count_le_one hcnt
      rw [if_pos (mem_dinsert_self pid _)]
      rw [hlook]
      simp only [Option.some.injEq]
      rw [hmap]
      simp

/-- A one-process system for the termination-cleanup scenario. -/
def killDemoOS : OperatingSystem :=
  (OperatingSystem.init.create_process "w" 5 32 [2, 3] [1]).2

set_option maxRecDepth 100000 in
theorem kill_process_cleanup_witness :
    1 ∉ (killDemoOS.kill_process 1).2.cpu_scheduler.processes ∧
    1 ∉ (killDemoOS.kill_process 1).2.cpu_scheduler.ready_queue ∧
    (killDemoOS.kill_process 1).2.cpu_scheduler.running_process ≠ some 1 ∧
    alookup 1 (killDemoOS.kill_process 1).2.virtual_memory.page_tables = none ∧
    (∀ t, alookup 1 killDemoOS.virtual_memory.page_tables = some t →
      ∀ e ∈ t.mapping, e.2 ∈ (killDemoOS.kill_process 1).2.virtual_memory.free_frames) ∧
    ∃ rest, (killDemoOS.kill_process 1).2.get_process_history 1 =
      some ((getP killDemoOS.procs 1).history ++ rest) :=
  kill_process_cleanup killDemoOS 1 (getP killDemoOS.procs 1) 0
    (by decide) rfl rfl (by decide) (by decide) (by decide)

end SimOS
